import Mathlib

/-!
# Verification of the vector-search load harness (`main_runner.go`)

A shallow embedding of the orchestration code of `main_runner.go`:
the statistics step (merge, sort, percentiles), the worker's outcome
classification, the start barrier, the duration monitor and the data set-up.

Conventions of the embedding.

* A Go `string` is its byte sequence, `List UInt8`.
* A latency is a finite `float64`; it is represented by its exact value in `ℚ`.
  (The worker only stores `float64(µs) / 1000.0`, never a NaN.)
* `float64` arithmetic on lengths is modelled exactly: a non-negative binary
  floating-point value is a natural number together with a fixed binary scale,
  and every operation rounds to 53 significant bits, ties to even.
* Go's `int` is 64-bit two's complement; `uint64` counters wrap modulo `2^64`.
-/

namespace VectorBench

/-! ## Data model -/

/-- A Go string, as its bytes. -/
abbrev GoString := List UInt8

/-- A Go `map[string]int`, as its list of entries (one entry per key). -/
abbrev ErrMap := List (GoString × Int)

/-- Mirror of `type WorkerResult struct { Latencies []float64; Errors map[string]int }`. -/
structure WorkerResult where
  Latencies : List ℚ
  Errors : ErrMap
deriving DecidableEq

/-! ## `float64` rounding on scaled naturals -/

/-- Helper of `bitLen`: number of binary digits of `n`, by repeated halving
(`fuel` bounds the number of halvings). -/
def bitLenAux : Nat → Nat → Nat
  | 0, _ => 0
  | fuel + 1, n => if n = 0 then 0 else bitLenAux fuel (n / 2) + 1

/-- Number of binary digits of `n` (0 for 0). -/
def bitLen (n : Nat) : Nat := bitLenAux n n

/-- Round `x` to a multiple of `2^s`, to nearest, ties to the even multiple. -/
def roundShift (x s : Nat) : Nat :=
  let q := x / 2 ^ s
  let r := x % 2 ^ s
  if 2 * r < 2 ^ s then q * 2 ^ s
  else if 2 * r = 2 ^ s then (if q % 2 = 0 then q else q + 1) * 2 ^ s
  else (q + 1) * 2 ^ s

/-- Round a non-negative value to the nearest `float64` (53 significant bits,
round-half-to-even).  Rounding depends on the significant digits only, so `x`
may carry any fixed binary scale. -/
def roundFloat64 (x : Nat) : Nat := roundShift x (bitLen x - 53)

/-- The `float64` constant `0.50`, scaled by `2^53`. -/
def c050 : Nat := 4503599627370496

/-- The `float64` constant `0.99` (nearest double `0x1.fae147ae147aep-1`), scaled by `2^53`. -/
def c099 : Nat := 8917127262193582

/-- The index expression `int(float64(len(allLatencies)) * p)` for a constant `p = c / 2^53`:
conversion of the length to `float64`, one rounded multiplication, truncation. -/
def rankIndex (c len : Nat) : Nat := roundFloat64 (roundFloat64 len * c) / 2 ^ 53

/-! ## Statistics step of `main` -/

/-- Effect of `sort.Float64s` on NaN-free data: the ascending arrangement. -/
def sortFloat64s (l : List ℚ) : List ℚ := l.insertionSort (· ≤ ·)

/-- The block `var p50, p99 float64; if len(allLatencies) > 0 { sort...; p50 = ...; p99 = ... }`.
`none` stands for an index-out-of-range panic. -/
def percentiles (allLatencies : List ℚ) : Option (ℚ × ℚ) :=
  if allLatencies.length > 0 then
    let sorted := sortFloat64s allLatencies
    match sorted[rankIndex c050 allLatencies.length]?, sorted[rankIndex c099 allLatencies.length]? with
    | some p50, some p99 => some (p50, p99)
    | _, _ => none
  else some (0, 0)


/-! ## Error histograms and the merge loop of `main` -/

/-- Two's-complement wrap of a mathematical integer into Go's 64-bit `int`. -/
def wrapInt64 (x : Int) : Int := (x + 2 ^ 63) % 2 ^ 64 - 2 ^ 63

/-- Map access with presence, `v, ok := m[k]`. -/
def mapLookup : ErrMap → GoString → Option Int
  | [], _ => none
  | (k', v) :: rest, k => if k' = k then some v else mapLookup rest k

/-- The statement `m[k] += c`: an absent key reads as the zero value and is created. -/
def mapAdd : ErrMap → GoString → Int → ErrMap
  | [], k, c => [(k, wrapInt64 (0 + c))]
  | (k', v) :: rest, k, c =>
    if k' = k then (k', wrapInt64 (v + c)) :: rest else (k', v) :: mapAdd rest k c

/-- The two accumulators of the statistics step, `allLatencies` and `combinedErrors`. -/
structure Aggregate where
  allLatencies : List ℚ
  combinedErrors : ErrMap
deriving DecidableEq

/-- Body of `for res := range resultsChan`: append the latencies, then
`for msg, count := range res.Errors { combinedErrors[msg] += count }`.
The entries are visited in the order in which the list holds them; Go leaves the order of
a `range` over a map open, and the resulting map does not depend on it
(`foldl_mapAdd_perm`). -/
def mergeOne (acc : Aggregate) (res : WorkerResult) : Aggregate :=
  { allLatencies := acc.allLatencies ++ res.Latencies
    combinedErrors := res.Errors.foldl (fun m e => mapAdd m e.1 e.2) acc.combinedErrors }

/-- The merge loop over the results in their order of arrival, from
`var allLatencies []float64` and `combinedErrors := make(map[string]int)`. -/
def mergeResults (rs : List WorkerResult) : Aggregate :=
  rs.foldl mergeOne { allLatencies := [], combinedErrors := [] }

/-- Sum of all counts held by a histogram. -/
def histTotal (m : ErrMap) : Int := (m.map Prod.snd).sum

/-- Two histograms are the same map when every key reads the same in both. -/
def MapEq (m₁ m₂ : ErrMap) : Prop := ∀ k, mapLookup m₁ k = mapLookup m₂ k

/-! ## The worker's request loop -/

/-- The Go string `"..."`. -/
def ellipsis : GoString := [46, 46, 46]

/-- The Go string `"No rows"`. -/
def noRows : GoString := [78, 111, 32, 114, 111, 119, 115]

/-- Histogram key of an executor error:
`errMsg := err.Error(); if len(errMsg) > 50 { errMsg = errMsg[:50] + "..." }`. -/
def errKey (errMsg : GoString) : GoString :=
  if errMsg.length > 50 then errMsg.take 50 ++ ellipsis else errMsg

/-- `atomic.AddUint64(&x, delta)` on a `uint64`. -/
def addUint64 (x delta : Nat) : Nat := (x + delta) % 2 ^ 64

/-- The package-level counters `totalQueries` and `totalErrors`. -/
structure Counters where
  totalQueries : Nat
  totalErrors : Nat
deriving DecidableEq

/-- What the backend does with one request: `db.Query` fails with a message, or it
returns a row set.  A row set is given by the rows that `rows.Next()` delivers, each
with the success of its `rows.Scan` (`true`: scanned, `false`: scan error), and the
request carries the elapsed time in milliseconds measured by `time.Since(t0)`. -/
inductive Outcome where
  | queryError (msg : GoString)
  | rowSet (scans : List Bool) (elapsedMs : ℚ)
deriving DecidableEq

/-- The fast scan loop
`for rows.Next() && rowCount < *topK { if err := rows.Scan(..); err != nil { break }; rowCount++ }`,
started with the given `rowCount`; the result is the final `rowCount`. -/
def scanLoop (topK : Int) : List Bool → Nat → Nat
  | [], rowCount => rowCount
  | scanned :: rest, rowCount =>
    if (rowCount : Int) < topK then
      if scanned then scanLoop topK rest (rowCount + 1) else rowCount
    else rowCount

/-- One iteration of the `default:` branch of the worker loop, from `db.Query` on:
the effect of one request on the shared counters and on the worker's `myResult`. -/
def requestStep (topK : Int) (c : Counters) (myResult : WorkerResult) (o : Outcome) :
    Counters × WorkerResult :=
  match o with
  | .queryError msg =>
    ({ c with totalErrors := addUint64 c.totalErrors 1 },
     { myResult with Errors := mapAdd myResult.Errors (errKey msg) 1 })
  | .rowSet scans elapsedMs =>
    let rowCount := scanLoop topK scans 0
    if rowCount > 0 then
      ({ c with totalQueries := addUint64 c.totalQueries 1 },
       { myResult with Latencies := myResult.Latencies ++ [elapsedMs] })
    else
      ({ c with totalErrors := addUint64 c.totalErrors 1 },
       { myResult with Errors := mapAdd myResult.Errors noRows 1 })

/-- The worker's `myResult` at the start: no latencies, empty histogram. -/
def freshResult : WorkerResult := { Latencies := [], Errors := [] }

/-- A worker running a sequence of requests one after the other. -/
def runRequests (topK : Int) (c : Counters) (myResult : WorkerResult) (os : List Outcome) :
    Counters × WorkerResult :=
  os.foldl (fun s o => requestStep topK s.1 s.2 o) (c, myResult)

/-- The counters and the `myResult` of every worker during the timed phase. -/
structure RunState where
  counters : Counters
  results : List WorkerResult
deriving DecidableEq

/-- State when the timed phase begins: zeroed counters, `n` workers with fresh results. -/
def initRun (n : Nat) : RunState :=
  { counters := { totalQueries := 0, totalErrors := 0 }, results := List.replicate n freshResult }

/-- Worker `i` completes one request with outcome `o` (a worker that does not exist
does nothing). -/
def workerStep (topK : Int) (s : RunState) (ev : Nat × Outcome) : RunState :=
  match s.results[ev.1]? with
  | none => s
  | some my =>
    let r := requestStep topK s.counters my ev.2
    { counters := r.1, results := s.results.set ev.1 r.2 }

/-- An interleaving of the workers' requests: the list says which worker completes
a request next and with which outcome. -/
def runWorkers (topK : Int) (s : RunState) (evs : List (Nat × Outcome)) : RunState :=
  evs.foldl (workerStep topK) s

/-- Sum over all workers of `len(Latencies)`. -/
def sumLatencies (rs : List WorkerResult) : Nat := (rs.map (fun r => r.Latencies.length)).sum

/-- A message of exactly 50 bytes (fifty times `a`). -/
def msg50 : GoString := List.replicate 50 97

/-- The message `msg50` followed by one more byte (`b`), 51 bytes. -/
def msg51 : GoString := List.replicate 50 97 ++ [98]

/-- A message of 60 bytes: fifty times `a`, ten times `x`. -/
def msgLongX : GoString := List.replicate 50 97 ++ List.replicate 10 120

/-- A message of 55 bytes: fifty times `a`, five times `y`. -/
def msgLongY : GoString := List.replicate 50 97 ++ List.replicate 5 121

/-! ## The start barrier -/

/-- Where a worker goroutine stands before its timed loop: still in the ping loop (it has
not called `startBarrier.Done()`), past `startBarrier.Done()` and blocked in `<-readyChan`,
or past `<-readyChan`, in its timed loop. -/
inductive Phase where
  | connecting
  | ready
  | running
deriving DecidableEq

/-- State of the ramp-up: the counter of the `sync.WaitGroup` `startBarrier`, the number
of `startBarrier.Done()` calls made so far, the phase of each worker, whether
`startBarrier.Wait()` has returned in `main`, and whether `readyChan` is closed. -/
structure BarrierState where
  counter : Int
  doneCalls : Nat
  phases : List Phase
  waitReturned : Bool
  readyClosed : Bool
deriving DecidableEq

/-- The atomic steps of the ramp-up. -/
inductive BarrierAction where
  /-- Worker `i`: `db.Ping()` fails, the worker sleeps and tries again. -/
  | pingFails (i : Nat)
  /-- Worker `i`: `db.Ping()` succeeds, `break`, `startBarrier.Done()`. -/
  | pingOk (i : Nat)
  /-- In `main`: `startBarrier.Wait()` returns. -/
  | waitReturns
  /-- In `main`: `close(readyChan)`. -/
  | closeReady
  /-- Worker `i`: the receive `<-readyChan` returns. -/
  | receive (i : Nat)
deriving DecidableEq

/-- State after `startBarrier.Add(*workers)` and `readyChan := make(chan bool)`, with the
`n` workers at the start of their ping loops. -/
def initBarrier (n : Nat) : BarrierState :=
  { counter := n, doneCalls := 0, phases := List.replicate n Phase.connecting,
    waitReturned := false, readyClosed := false }

/-- One step; `none` when the step cannot be taken in this state.  `Done` decrements the
counter (a negative counter is a panic), `Wait` returns only at counter zero, and a receive
on the unbuffered `readyChan`, on which nothing is ever sent, returns only once the
channel is closed. -/
def barrierStep (s : BarrierState) : BarrierAction → Option BarrierState
  | .pingFails i => if s.phases[i]? = some Phase.connecting then some s else none
  | .pingOk i =>
    if s.phases[i]? = some Phase.connecting ∧ 0 < s.counter then
      some { s with counter := s.counter - 1, doneCalls := s.doneCalls + 1,
                    phases := s.phases.set i Phase.ready }
    else none
  | .waitReturns =>
    if s.waitReturned = false ∧ s.counter = 0 then some { s with waitReturned := true } else none
  | .closeReady =>
    if s.waitReturned = true ∧ s.readyClosed = false then some { s with readyClosed := true }
    else none
  | .receive i =>
    if s.phases[i]? = some Phase.ready ∧ s.readyClosed = true then
      some { s with phases := s.phases.set i Phase.running }
    else none

/-- A schedule: the steps taken one after the other. -/
def runBarrier (s : BarrierState) : List BarrierAction → Option BarrierState
  | [] => some s
  | a :: rest =>
    match barrierStep s a with
    | none => none
    | some s' => runBarrier s' rest

/-- Number of workers that are past `startBarrier.Done()`. -/
def pastDone (phases : List Phase) : Nat := phases.countP (fun p => decide (p ≠ Phase.connecting))

/-- The invariant of the ramp-up for `n` workers. -/
def BarrierInv (n : Nat) (s : BarrierState) : Prop :=
  s.phases.length = n ∧ s.counter + s.doneCalls = n ∧ s.doneCalls = pastDone s.phases ∧
  (s.waitReturned = true → s.counter = 0) ∧ (s.readyClosed = true → s.waitReturned = true) ∧
  (Phase.running ∈ s.phases → s.readyClosed = true)

/-! ## The duration monitor -/

/-- The conversion `float64(*duration)` of a Go `int`; the value is an integer. -/
def float64OfInt (d : Int) : Int :=
  if 0 ≤ d then (roundFloat64 d.toNat : Int) else -(roundFloat64 (-d).toNat : Int)

/-- The quotient `float64(nsec) / 1e9` of `Duration.Seconds`, scaled by `2^128`: the exact
quotient rounded to 53 significant bits, ties to even (`1e9` is a `float64` exactly). -/
def divBillion (nsec : Nat) : Nat :=
  let x := roundFloat64 nsec * 2 ^ 128
  let s := bitLen (x / 10 ^ 9) - 53
  let den := 10 ^ 9 * 2 ^ s
  let q := x / den
  let r := x % den
  (if 2 * r < den then q else if 2 * r = den then (if q % 2 = 0 then q else q + 1) else q + 1)
    * 2 ^ s

/-- The method `Duration.Seconds` of package `time` on a non-negative duration of `ns`
nanoseconds, `sec := d / Second; nsec := d % Second; return float64(sec) + float64(nsec)/1e9`;
the `float64` result is given scaled by `2^128`. -/
def secondsScaled (ns : Nat) : Nat :=
  roundFloat64 (roundFloat64 (ns / 10 ^ 9) * 2 ^ 128 + divBillion (ns % 10 ^ 9))

/-- The largest `time.Duration`, `1<<63 - 1` nanoseconds. -/
def maxDuration : Nat := 2 ^ 63 - 1

/-- The value of `time.Since(start)` when `elapsed` nanoseconds have gone by since `start`:
a `Duration` is an `int64` count of nanoseconds, and the subtraction of two times returns
the largest duration when the difference does not fit. -/
def sinceStart (elapsed : Nat) : Nat := min elapsed maxDuration

/-- The test `time.Since(start).Seconds() >= float64(*duration)` when `elapsed` nanoseconds
have gone by since `start`. -/
def durationReached (elapsed : Nat) (d : Int) : Bool :=
  decide (float64OfInt d * 2 ^ 128 ≤ (secondsScaled (sinceStart elapsed) : Int))

/-- What the monitor goroutine does at a tick. -/
inductive MonitorEvent where
  /-- The line `[ ..s] QPS: ..` is printed. -/
  | printQPS
  /-- The call `cancel()`. -/
  | cancel
deriving DecidableEq

/-- What the monitor goroutine has done: its events, oldest first, and whether it has
returned. -/
structure MonitorRun where
  events : List MonitorEvent
  returned : Bool
deriving DecidableEq

/-- The monitor goroutine over the ticks it receives, each given by the time, in
nanoseconds, gone by since `start` at its test.  When the ticks are used up the goroutine
is blocked in `<-monitorTicker.C`. -/
def monitor (d : Int) : List Nat → MonitorRun
  | [] => { events := [], returned := false }
  | ns :: rest =>
    if durationReached ns d then { events := [MonitorEvent.cancel], returned := true }
    else
      { events := MonitorEvent.printQPS :: (monitor d rest).events,
        returned := (monitor d rest).returned }

/-- The ticks number `start`, ..., `start + n - 1` of a stream of ticks. -/
def ticksFrom (t : Nat → Nat) : Nat → Nat → List Nat
  | _, 0 => []
  | start, n + 1 => t start :: ticksFrom t (start + 1) n

/-! ## Strings: `strings.TrimSpace`, `strings.Split` -/

/-- The UTF-8 encodings of the runes for which `unicode.IsSpace` holds: tab, line feed,
vertical tab, form feed, carriage return, space, U+0085, U+00A0, U+1680, U+2000 to U+200A,
U+2028, U+2029, U+202F, U+205F, U+3000. -/
def spaceRunes : List GoString :=
  [[9], [10], [11], [12], [13], [32], [194, 133], [194, 160], [225, 154, 128],
   [226, 128, 128], [226, 128, 129], [226, 128, 130], [226, 128, 131], [226, 128, 132],
   [226, 128, 133], [226, 128, 134], [226, 128, 135], [226, 128, 136], [226, 128, 137],
   [226, 128, 138], [226, 128, 168], [226, 128, 169], [226, 128, 175], [226, 129, 159],
   [227, 128, 128]]

/-- The encodings of `spaceRunes` read backwards, for trimming at the end. -/
def spaceRunesRev : List GoString := spaceRunes.map List.reverse

/-- Width of the member of `runes` that `s` starts with, 0 when it starts with none. -/
def leadingWidth (runes : List GoString) (s : GoString) : Nat :=
  match runes.find? (fun e => e.isPrefixOf s) with
  | some e => e.length
  | none => 0

/-- Remove members of `runes` from the front of `s` as long as there is one (`fuel` bounds
the number of removals). -/
def trimFrontAux (runes : List GoString) : Nat → GoString → GoString
  | 0, s => s
  | fuel + 1, s =>
    if leadingWidth runes s = 0 then s else trimFrontAux runes fuel (s.drop (leadingWidth runes s))

/-- Remove all leading members of `runes`. -/
def trimFront (runes : List GoString) (s : GoString) : GoString := trimFrontAux runes s.length s

/-- The function `strings.TrimSpace`: the string without its leading and its trailing white
space, white space being the runes of `unicode.IsSpace` in valid UTF-8. -/
def TrimSpace (s : GoString) : GoString :=
  (trimFront spaceRunesRev (trimFront spaceRunes s).reverse).reverse

/-- The function `strings.Split(s, sep)` for a separator of one byte: the pieces of `s`
between the separators (one piece, possibly empty, if there is no separator). -/
def splitByte (sep : UInt8) : GoString → List GoString
  | [] => [[]]
  | b :: rest =>
    if b = sep then [] :: splitByte sep rest
    else
      match splitByte sep rest with
      | [] => [[b]]
      | piece :: pieces => (b :: piece) :: pieces

/-! ## `loadVectors` -/

/-- Errors that `loadVectors` returns. -/
inductive LoadError where
  /-- The error of `os.Open`. -/
  | openFailed
  /-- The error `bufio.ErrTooLong` of the scanner. -/
  | tooLong
deriving DecidableEq

/-- Result of one call of `scanner.Scan()`. -/
inductive ScanResult where
  /-- `Scan` returns true: the token `scanner.Text()` and the input left after it. -/
  | token (text rest : GoString)
  /-- `Scan` returns false at the end of the input, `scanner.Err()` is nil. -/
  | done
  /-- `Scan` returns false, `scanner.Err()` is `bufio.ErrTooLong`. -/
  | tooLong
deriving DecidableEq

/-- Size of the scanner's buffer and its maximal token size, `64*1024`. -/
def bufSize : Nat := 64 * 1024

/-- The helper `dropCR` of `bufio.ScanLines`: drop one trailing carriage return. -/
def dropCR (data : GoString) : GoString :=
  if data.getLast? = some 13 then data.dropLast else data

/-- One `scanner.Scan()` of a `bufio.Scanner` with the split function `bufio.ScanLines`
and `scanner.Buffer(buf, 64*1024)`, `len(buf) = 64*1024`, on the unread input `rest`.
The line runs up to the first line feed or to the end of the input; when `bufSize` bytes
are buffered without a line feed among them the buffer is full and cannot grow, and the
scan stops with `bufio.ErrTooLong`. -/
def scanOnce (rest : GoString) : ScanResult :=
  if rest = [] then ScanResult.done
  else if bufSize ≤ (rest.takeWhile (fun b => b ≠ 10)).length then ScanResult.tooLong
  else
    ScanResult.token (dropCR (rest.takeWhile (fun b => b ≠ 10)))
      ((rest.dropWhile (fun b => b ≠ 10)).drop 1)

/-- The loop `for scanner.Scan() { t := strings.TrimSpace(scanner.Text()); if t != "" {
vecs = append(vecs, t) } }` followed by `return vecs, scanner.Err()`; `fuel` bounds the
number of calls of `Scan`. -/
def scanLines : Nat → GoString → List GoString → List GoString × Option LoadError
  | 0, _, vecs => (vecs, none)
  | fuel + 1, rest, vecs =>
    match scanOnce rest with
    | ScanResult.done => (vecs, none)
    | ScanResult.tooLong => (vecs, some LoadError.tooLong)
    | ScanResult.token text rest' =>
      scanLines fuel rest' (if TrimSpace text ≠ [] then vecs ++ [TrimSpace text] else vecs)

/-- The function `loadVectors`, on what `os.Open(path)` gives: `none` if the file cannot
be opened, the content of the file otherwise (reads do not fail). -/
def loadVectors (file : Option GoString) : List GoString × Option LoadError :=
  match file with
  | none => ([], some LoadError.openFailed)
  | some content => scanLines (content.length + 1) content []

/-- The lines of the claim: the content split at line feeds, every line trimmed, the
lines that are then empty dropped. -/
def nonBlankTrimmedLines (content : GoString) : List GoString :=
  ((splitByte 10 content).map TrimSpace).filter (fun t => t ≠ [])

/-! ## Set-up of `main` and the random draws of the worker loop -/

/-- The Go string `"vectors_copy_"`. -/
def tablePrefix : GoString := [118, 101, 99, 116, 111, 114, 115, 95, 99, 111, 112, 121, 95]

/-- Step 1 of `main`: `tableNums := strings.Split(*tablesParam, ",")` and the loop that
appends `fmt.Sprintf("vectors_copy_%s", trimmed)` for every entry whose trimmed form is
not empty. -/
def tableNamesOf (tablesParam : GoString) : List GoString :=
  (splitByte 44 tablesParam).foldl
    (fun tableNames num =>
      if TrimSpace num ≠ [] then tableNames ++ [tablePrefix ++ TrimSpace num] else tableNames)
    []

/-- The method `Intn` of `*rand.Rand`: it panics (`none`) if `n <= 0`, otherwise it
returns a number in `[0, n)`; `raw` stands for the state of the generator. -/
def Intn (raw : Nat) (n : Int) : Option Nat :=
  if n ≤ 0 then none else some (raw % n.toNat)

/-- How the first iteration of a worker's loop, or `main` before it, ends. -/
inductive DrawResult where
  /-- `log.Fatalf` in `main`: the process exits before any worker starts. -/
  | fatal
  /-- A run-time panic in the worker. -/
  | panic
  /-- The draws succeed: the template and the vector chosen. -/
  | drawn (template vecStr : GoString)
deriving DecidableEq

/-- From the set-up of `main` to the first draws of a worker:
`tableIdx := r.Intn(lenTabs); vecStr := vectors[r.Intn(lenVecs)]` and the access
`queryTemplates[tableIdx]`.  The function `render` builds the query template of a table
(the `fmt.Sprintf` of the pre-build loop), `file` is what `os.Open` gives for the data
set, `raw₁` and `raw₂` stand for the generator. -/
def firstDraw (render : GoString → GoString) (tablesParam : GoString)
    (file : Option GoString) (raw₁ raw₂ : Nat) : DrawResult :=
  let tableNames := tableNamesOf tablesParam
  match loadVectors file with
  | (_, some _) => DrawResult.fatal
  | (vectors, none) =>
    let queryTemplates := tableNames.map render
    let lenVecs := vectors.length
    let lenTabs := tableNames.length
    match Intn raw₁ lenTabs with
    | none => DrawResult.panic
    | some tableIdx =>
      match Intn raw₂ lenVecs with
      | none => DrawResult.panic
      | some vecIdx =>
        match vectors[vecIdx]?, queryTemplates[tableIdx]? with
        | some vecStr, some template => DrawResult.drawn template vecStr
        | _, _ => DrawResult.panic

/-! # Theorems -/

/-! ## Lemmas: rounding -/

theorem bitLenAux_lt (fuel : Nat) : ∀ n, n ≤ fuel → n < 2 ^ bitLenAux fuel n := by
  induction fuel with
  | zero => intro n h; simp [bitLenAux]; omega
  | succ f ih =>
    intro n h
    unfold bitLenAux
    split
    · subst_vars; simp
    · have := ih (n / 2) (by omega)
      rw [pow_succ]; omega

theorem bitLenAux_le (fuel : Nat) : ∀ n, n ≤ fuel → 0 < n → 2 ^ (bitLenAux fuel n - 1) ≤ n := by
  induction fuel with
  | zero => intro n h h0; omega
  | succ f ih =>
    intro n h h0
    unfold bitLenAux
    rw [if_neg (by omega)]
    simp only [Nat.add_sub_cancel]
    by_cases h2 : n / 2 = 0
    · have : bitLenAux f (n / 2) = 0 := by
        rw [h2]; cases f <;> simp [bitLenAux]
      rw [this]; simpa using h0
    · have := ih (n / 2) (by omega) (by omega)
      have hpos : 0 < bitLenAux f (n / 2) := by
        cases f with
        | zero => omega
        | succ g => unfold bitLenAux; rw [if_neg h2]; omega
      have e : bitLenAux f (n / 2) = (bitLenAux f (n / 2) - 1) + 1 := by omega
      rw [e, pow_succ]; omega

theorem lt_two_pow_bitLen (n : Nat) : n < 2 ^ bitLen n := bitLenAux_lt n n le_rfl

theorem two_pow_bitLen_le (n : Nat) (h : 0 < n) : 2 ^ (bitLen n - 1) ≤ n :=
  bitLenAux_le n n le_rfl h

theorem roundShift_zero (x : Nat) : roundShift x 0 = x := by
  simp [roundShift, Nat.mod_one]

theorem roundShift_near (x s : Nat) :
    2 * roundShift x s ≤ 2 * x + 2 ^ s ∧ 2 * x ≤ 2 * roundShift x s + 2 ^ s := by
  have ht : 0 < 2 ^ s := Nat.two_pow_pos s
  have hx := Nat.div_add_mod x (2 ^ s)
  have hr := Nat.mod_lt x ht
  have hc : 2 ^ s * (x / 2 ^ s) = x / 2 ^ s * 2 ^ s := Nat.mul_comm _ _
  have hs : (x / 2 ^ s + 1) * 2 ^ s = x / 2 ^ s * 2 ^ s + 2 ^ s := by ring
  unfold roundShift
  simp only []
  split
  · omega
  · split
    · split <;> omega
    · omega

theorem roundShift_exact (x s c : Nat) (hle : x ≤ c * 2 ^ s) (hd : 2 * (c * 2 ^ s - x) < 2 ^ s) :
    roundShift x s = c * 2 ^ s := by
  have ht : 0 < 2 ^ s := Nat.two_pow_pos s
  by_cases h0 : x = c * 2 ^ s
  · subst h0
    simp [roundShift, Nat.mul_div_cancel _ ht, ht]
  · have hc : 0 < c := by
      rcases Nat.eq_zero_or_pos c with h | h
      · subst h; simp at hle; simp [hle] at h0
      · exact h
    have hcs : (c - 1 + 1) * 2 ^ s = c * 2 ^ s := by rw [Nat.sub_add_cancel hc]
    have hexp : (c - 1 + 1) * 2 ^ s = (c - 1) * 2 ^ s + 2 ^ s := by ring
    have hq : x / 2 ^ s = c - 1 := by
      apply Nat.div_eq_of_lt_le <;> omega
    have hx := Nat.div_add_mod x (2 ^ s)
    rw [hq, Nat.mul_comm] at hx
    unfold roundShift
    simp only [hq]
    rw [if_neg (by omega), if_neg (by omega)]
    exact hcs

theorem roundFloat64_spec (x : Nat) :
    x < 2 ^ (bitLen x - 53) * 2 ^ 53 ∧
      (bitLen x - 53 = 0 ∨ 2 ^ (bitLen x - 53) * 2 ^ 52 ≤ x) := by
  have h1 := lt_two_pow_bitLen x
  by_cases hb : bitLen x ≤ 53
  · have e : bitLen x - 53 = 0 := by omega
    refine ⟨?_, Or.inl e⟩
    rw [e]
    calc x < 2 ^ bitLen x := h1
      _ ≤ 2 ^ 53 := Nat.pow_le_pow_right (by decide) hb
      _ = 2 ^ 0 * 2 ^ 53 := by simp
  · have hx : 0 < x := by
      rcases Nat.eq_zero_or_pos x with h | h
      · subst h; simp [bitLen, bitLenAux] at hb
      · exact h
    have h2 := two_pow_bitLen_le x hx
    have e1 : bitLen x = (bitLen x - 53) + 53 := by omega
    have e2 : bitLen x - 1 = (bitLen x - 53) + 52 := by omega
    rw [e2, pow_add] at h2
    refine ⟨?_, Or.inr h2⟩
    rw [← pow_add, ← e1]; exact h1

theorem roundFloat64_small (x : Nat) (h : x < 2 ^ 53) : roundFloat64 x = x := by
  have e : bitLen x - 53 = 0 := by
    rcases (roundFloat64_spec x).2 with h0 | h0
    · exact h0
    · by_contra hne
      have : 2 ≤ 2 ^ (bitLen x - 53) := by
        calc 2 = 2 ^ 1 := by norm_num
          _ ≤ 2 ^ (bitLen x - 53) := Nat.pow_le_pow_right (by decide) (by omega)
      have h52 : (2:Nat) ^ 52 = 4503599627370496 := by norm_num
      have h53 : (2:Nat) ^ 53 = 9007199254740992 := by norm_num
      rw [h53] at h
      rw [h52] at h0
      have := Nat.mul_le_mul_right 4503599627370496 this
      omega
  unfold roundFloat64
  rw [e, roundShift_zero]

theorem shift_le_of_bound (x s : Nat) (hx : x < 2 ^ 104) (h : s = 0 ∨ 2 ^ s * 2 ^ 52 ≤ x) :
    s ≤ 53 := by
  rcases h with h | h
  · omega
  · by_contra hlt
    have h1 : 2 ^ 54 ≤ 2 ^ s := Nat.pow_le_pow_right (by decide) (by omega)
    have h2 := Nat.mul_le_mul_right (2 ^ 52) h1
    have h3 : (2:Nat) ^ 54 * 2 ^ 52 = 2 ^ 106 := by norm_num
    have h4 : (2:Nat) ^ 104 < 2 ^ 106 := by norm_num
    omega

theorem rankIndex_c099 (n : Nat) (hn : n < 2 ^ 46) : rankIndex c099 n = 99 * n / 100 := by
  have h45 : (2:Nat) ^ 46 = 70368744177664 := by norm_num
  have h52 : (2:Nat) ^ 52 = 4503599627370496 := by norm_num
  have h53 : (2:Nat) ^ 53 = 9007199254740992 := by norm_num
  have h98 : (2:Nat) ^ 104 = 20282409603651670423947251286016 := by norm_num
  rw [h45] at hn
  unfold rankIndex
  rw [roundFloat64_small n (by rw [h53]; omega)]
  obtain ⟨hlt, hge⟩ := roundFloat64_spec (n * c099)
  have hs : bitLen (n * c099) - 53 ≤ 53 :=
    shift_le_of_bound _ _ (by rw [h98]; unfold c099; omega) hge
  obtain ⟨hup, hlo⟩ := roundShift_near (n * c099) (bitLen (n * c099) - 53)
  have hpow : 2 ^ (53 - (bitLen (n * c099) - 53)) * 2 ^ (bitLen (n * c099) - 53) = 2 ^ 53 := by
    rw [← pow_add]; congr 1; omega
  have hone : bitLen (n * c099) - 53 = 0 → 2 ^ (bitLen (n * c099) - 53) = 1 := by
    intro h; rw [h]; rfl
  unfold roundFloat64
  by_cases hr : 99 * n % 100 = 0
  · have hex := roundShift_exact (n * c099) (bitLen (n * c099) - 53)
      (99 * n / 100 * 2 ^ (53 - (bitLen (n * c099) - 53)))
    rw [Nat.mul_assoc, hpow] at hex
    generalize 2 ^ (bitLen (n * c099) - 53) = t at *
    rw [h52] at hge
    rw [h53] at hlt hex ⊢
    unfold c099 at *
    rw [hex (by omega) (by omega)]
    omega
  · generalize roundShift (n * c099) (bitLen (n * c099) - 53) = R at *
    generalize 2 ^ (bitLen (n * c099) - 53) = t at *
    rw [h52] at hge
    rw [h53] at hlt ⊢
    unfold c099 at *
    omega

theorem rankIndex_c050 (n : Nat) (hn : n < 2 ^ 46) : rankIndex c050 n = n / 2 := by
  have h45 : (2:Nat) ^ 46 = 70368744177664 := by norm_num
  have h52 : (2:Nat) ^ 52 = 4503599627370496 := by norm_num
  have h53 : (2:Nat) ^ 53 = 9007199254740992 := by norm_num
  have h98 : (2:Nat) ^ 104 = 20282409603651670423947251286016 := by norm_num
  rw [h45] at hn
  unfold rankIndex
  rw [roundFloat64_small n (by rw [h53]; omega)]
  obtain ⟨hlt, hge⟩ := roundFloat64_spec (n * c050)
  have hs : bitLen (n * c050) - 53 ≤ 53 :=
    shift_le_of_bound _ _ (by rw [h98]; unfold c050; omega) hge
  obtain ⟨hup, hlo⟩ := roundShift_near (n * c050) (bitLen (n * c050) - 53)
  have hpow : 2 ^ (53 - (bitLen (n * c050) - 53)) * 2 ^ (bitLen (n * c050) - 53) = 2 ^ 53 := by
    rw [← pow_add]; congr 1; omega
  have hone : bitLen (n * c050) - 53 = 0 → 2 ^ (bitLen (n * c050) - 53) = 1 := by
    intro h; rw [h]; rfl
  unfold roundFloat64
  by_cases hr : n % 2 = 0
  · have hex := roundShift_exact (n * c050) (bitLen (n * c050) - 53)
      (n / 2 * 2 ^ (53 - (bitLen (n * c050) - 53)))
    rw [Nat.mul_assoc, hpow] at hex
    generalize 2 ^ (bitLen (n * c050) - 53) = t at *
    rw [h52] at hge
    rw [h53] at hlt hex ⊢
    unfold c050 at *
    rw [hex (by omega) (by omega)]
    omega
  · generalize roundShift (n * c050) (bitLen (n * c050) - 53) = R at *
    generalize 2 ^ (bitLen (n * c050) - 53) = t at *
    rw [h52] at hge
    rw [h53] at hlt ⊢
    unfold c050 at *
    omega

theorem roundShift_ge_mult (x s c : Nat) (h : c * 2 ^ s ≤ x) : c * 2 ^ s ≤ roundShift x s := by
  have ht : 0 < 2 ^ s := Nat.two_pow_pos s
  have hq : c ≤ x / 2 ^ s := (Nat.le_div_iff_mul_le ht).mpr h
  have h1 : c * 2 ^ s ≤ x / 2 ^ s * 2 ^ s := Nat.mul_le_mul_right _ hq
  have h2 : x / 2 ^ s * 2 ^ s ≤ (x / 2 ^ s + 1) * 2 ^ s := Nat.mul_le_mul_right _ (Nat.le_succ _)
  unfold roundShift
  simp only []
  split
  · exact h1
  · split
    · split
      · exact h1
      · exact h1.trans h2
    · exact h1.trans h2

theorem roundShift_le_mult (x s c : Nat) (h : x ≤ c * 2 ^ s) : roundShift x s ≤ c * 2 ^ s := by
  have ht : 0 < 2 ^ s := Nat.two_pow_pos s
  by_cases he : x = c * 2 ^ s
  · rw [roundShift_exact x s c h (by rw [he]; simp)]
  · have hlt : x < c * 2 ^ s := lt_of_le_of_ne h he
    have hq : x / 2 ^ s < c := (Nat.div_lt_iff_lt_mul ht).mpr hlt
    have h1 : (x / 2 ^ s + 1) * 2 ^ s ≤ c * 2 ^ s := Nat.mul_le_mul_right _ hq
    have h2 : x / 2 ^ s * 2 ^ s ≤ (x / 2 ^ s + 1) * 2 ^ s := Nat.mul_le_mul_right _ (Nat.le_succ _)
    unfold roundShift
    simp only []
    split
    · exact h2.trans h1
    · split
      · split
        · exact h2.trans h1
        · exact h1
      · exact h1

theorem roundFloat64_ge_of_repr (x c j : Nat) (hc : c ≤ 2 ^ 53) (h : c * 2 ^ j ≤ x) :
    c * 2 ^ j ≤ roundFloat64 x := by
  unfold roundFloat64
  by_cases hs : bitLen x - 53 ≤ j
  · have e : c * 2 ^ j = c * 2 ^ (j - (bitLen x - 53)) * 2 ^ (bitLen x - 53) := by
      rw [Nat.mul_assoc, ← pow_add]; congr 2; omega
    rw [e] at h ⊢
    exact roundShift_ge_mult _ _ _ h
  · rcases (roundFloat64_spec x).2 with h0 | h0
    · omega
    · have h1 : 2 ^ 52 * 2 ^ (bitLen x - 53) ≤ roundShift x (bitLen x - 53) :=
        roundShift_ge_mult _ _ _ (by rw [Nat.mul_comm]; exact h0)
      have h2 : c * 2 ^ j ≤ 2 ^ 53 * 2 ^ j := Nat.mul_le_mul_right _ hc
      have h3 : 2 ^ 53 * 2 ^ j ≤ 2 ^ 52 * 2 ^ (bitLen x - 53) := by
        rw [← pow_add, ← pow_add]
        exact Nat.pow_le_pow_right (by decide) (by omega)
      exact (h2.trans h3).trans h1

theorem roundFloat64_le_of_repr (x c j : Nat) (hc : c ≤ 2 ^ 53) (h : x ≤ c * 2 ^ j) :
    roundFloat64 x ≤ c * 2 ^ j := by
  unfold roundFloat64
  by_cases hs : bitLen x - 53 ≤ j
  · have e : c * 2 ^ j = c * 2 ^ (j - (bitLen x - 53)) * 2 ^ (bitLen x - 53) := by
      rw [Nat.mul_assoc, ← pow_add]; congr 2; omega
    rw [e] at h ⊢
    exact roundShift_le_mult _ _ _ h
  · rcases (roundFloat64_spec x).2 with h0 | h0
    · omega
    · have h2 : c * 2 ^ j ≤ 2 ^ 53 * 2 ^ j := Nat.mul_le_mul_right _ hc
      have h3 : 2 ^ 53 * 2 ^ j ≤ 2 ^ 52 * 2 ^ (bitLen x - 53) := by
        rw [← pow_add, ← pow_add]
        exact Nat.pow_le_pow_right (by decide) (by omega)
      have h4 : x ≤ 2 ^ 52 * 2 ^ (bitLen x - 53) := (h.trans h2).trans h3
      have h5 := roundShift_le_mult x (bitLen x - 53) (2 ^ 52) h4
      rw [Nat.mul_comm] at h0
      exact (h5.trans h0).trans h

theorem roundFloat64_repr (x : Nat) :
    ∃ c, c ≤ 2 ^ 53 ∧ roundFloat64 x = c * 2 ^ (bitLen x - 53) := by
  have ht : 0 < 2 ^ (bitLen x - 53) := Nat.two_pow_pos _
  have hlt : x < 2 ^ 53 * 2 ^ (bitLen x - 53) := by
    rw [Nat.mul_comm]; exact (roundFloat64_spec x).1
  have hq : x / 2 ^ (bitLen x - 53) < 2 ^ 53 := (Nat.div_lt_iff_lt_mul ht).mpr hlt
  unfold roundFloat64 roundShift
  simp only []
  split
  · exact ⟨_, le_of_lt hq, rfl⟩
  · split
    · split
      · exact ⟨_, le_of_lt hq, rfl⟩
      · exact ⟨_, hq, rfl⟩
    · exact ⟨_, hq, rfl⟩

/-! ## Lemmas: histograms -/

theorem wrapInt64_add_comm (v a b : Int) :
    wrapInt64 (wrapInt64 (v + a) + b) = wrapInt64 (wrapInt64 (v + b) + a) := by
  unfold wrapInt64
  have h63 : (2:Int) ^ 63 = 9223372036854775808 := by norm_num
  have h64 : (2:Int) ^ 64 = 18446744073709551616 := by norm_num
  rw [h63, h64]
  omega

theorem mapLookup_mapAdd (m : ErrMap) (k : GoString) (c : Int) (k' : GoString) :
    mapLookup (mapAdd m k c) k' =
      if k = k' then some (wrapInt64 ((mapLookup m k).getD 0 + c)) else mapLookup m k' := by
  induction m with
  | nil =>
    simp only [mapAdd, mapLookup]
    split <;> simp
  | cons e rest ih =>
    obtain ⟨k0, v⟩ := e
    by_cases h0 : k0 = k
    · subst h0
      simp only [mapAdd, mapLookup, if_true]
      split <;> simp
    · simp only [mapAdd, mapLookup, if_neg h0]
      by_cases h1 : k0 = k'
      · subst h1
        simp [Ne.symm h0]
      · simp only [if_neg h1, ih]

theorem MapEq.mapAdd {m₁ m₂ : ErrMap} (h : MapEq m₁ m₂) (k : GoString) (c : Int) :
    MapEq (mapAdd m₁ k c) (mapAdd m₂ k c) := by
  intro k'
  rw [mapLookup_mapAdd, mapLookup_mapAdd, h k, h k']

theorem mapAdd_swap (m : ErrMap) (k₁ k₂ : GoString) (c₁ c₂ : Int) :
    MapEq (mapAdd (mapAdd m k₁ c₁) k₂ c₂) (mapAdd (mapAdd m k₂ c₂) k₁ c₁) := by
  intro k'
  simp only [mapLookup_mapAdd]
  by_cases h12 : k₁ = k₂
  · subst h12
    by_cases h1 : k₁ = k'
    · simp [h1, wrapInt64_add_comm]
    · simp [h1]
  · have h21 : ¬ k₂ = k₁ := fun h => h12 h.symm
    by_cases h1 : k₁ = k' <;> by_cases h2 : k₂ = k' <;> simp [h1, h2, h12, h21]
    · exact absurd (h1.trans h2.symm) h12

theorem foldl_mapAdd_perm {es₁ es₂ : List (GoString × Int)} (hp : es₁.Perm es₂) :
    ∀ m₁ m₂ : ErrMap, MapEq m₁ m₂ →
      MapEq (es₁.foldl (fun m e => mapAdd m e.1 e.2) m₁)
        (es₂.foldl (fun m e => mapAdd m e.1 e.2) m₂) := by
  induction hp with
  | nil => intro m₁ m₂ h; exact h
  | cons x _ ih => intro m₁ m₂ h; exact ih _ _ (h.mapAdd x.1 x.2)
  | swap x y l =>
    intro m₁ m₂ h
    simp only [List.foldl_cons]
    have key : MapEq (mapAdd (mapAdd m₁ y.1 y.2) x.1 x.2) (mapAdd (mapAdd m₂ x.1 x.2) y.1 y.2) := by
      intro k
      rw [mapAdd_swap m₁ y.1 x.1 y.2 x.2 k]
      exact ((h.mapAdd x.1 x.2).mapAdd y.1 y.2) k
    have hl : ∀ (l : List (GoString × Int)) (a b : ErrMap), MapEq a b →
        MapEq (l.foldl (fun m e => mapAdd m e.1 e.2) a)
          (l.foldl (fun m e => mapAdd m e.1 e.2) b) := by
      intro l
      induction l with
      | nil => intro a b hab; exact hab
      | cons e t iht => intro a b hab; exact iht _ _ (hab.mapAdd e.1 e.2)
    exact hl l _ _ key
  | trans _ _ ih₁ ih₂ =>
    intro m₁ m₂ h
    intro k
    rw [ih₁ m₁ m₁ (fun _ => rfl) k]
    exact ih₂ m₁ m₂ h k

theorem mergeResults_foldl (rs : List WorkerResult) (acc : Aggregate) :
    (rs.foldl mergeOne acc).allLatencies
        = acc.allLatencies ++ (rs.map WorkerResult.Latencies).flatten ∧
      (rs.foldl mergeOne acc).combinedErrors
        = ((rs.map WorkerResult.Errors).flatten).foldl (fun m e => mapAdd m e.1 e.2)
            acc.combinedErrors := by
  induction rs generalizing acc with
  | nil => simp
  | cons r rest ih =>
    obtain ⟨h1, h2⟩ := ih (mergeOne acc r)
    simp only [List.foldl_cons, List.map_cons, List.flatten_cons, List.foldl_append]
    rw [h1, h2]
    simp [mergeOne, List.append_assoc]

theorem keys_mapAdd (m : ErrMap) (k : GoString) (c : Int) :
    (mapAdd m k c).map Prod.fst =
      if k ∈ m.map Prod.fst then m.map Prod.fst else m.map Prod.fst ++ [k] := by
  induction m with
  | nil => simp [mapAdd]
  | cons e rest ih =>
    obtain ⟨k0, v⟩ := e
    by_cases h0 : k0 = k
    · subst h0; simp [mapAdd]
    · have h0' : ¬ k = k0 := fun h => h0 h.symm
      simp only [mapAdd, if_neg h0, List.map_cons, ih, List.mem_cons, h0', false_or]
      split <;> simp

theorem nodupKeys_mapAdd (m : ErrMap) (k : GoString) (c : Int) (h : (m.map Prod.fst).Nodup) :
    ((mapAdd m k c).map Prod.fst).Nodup := by
  rw [keys_mapAdd]
  split
  · exact h
  · rename_i hk
    rw [List.nodup_append]
    refine ⟨h, List.nodup_singleton k, ?_⟩
    intro a ha hb
    simp at hb
    subst hb
    exact hk ha

theorem nodupKeys_foldl (es : List (GoString × Int)) (m : ErrMap) (h : (m.map Prod.fst).Nodup) :
    ((es.foldl (fun m e => mapAdd m e.1 e.2) m).map Prod.fst).Nodup := by
  induction es generalizing m with
  | nil => exact h
  | cons e rest ih => exact ih _ (nodupKeys_mapAdd m e.1 e.2 h)

theorem mapLookup_eq_none (m : ErrMap) (k : GoString) (h : k ∉ m.map Prod.fst) :
    mapLookup m k = none := by
  induction m with
  | nil => rfl
  | cons e rest ih =>
    obtain ⟨k0, v⟩ := e
    simp only [List.map_cons, List.mem_cons, not_or] at h
    have hne : ¬ k0 = k := fun h' => h.1 h'.symm
    simp only [mapLookup, if_neg hne]
    exact ih h.2

theorem mem_iff_mapLookup (m : ErrMap) (h : (m.map Prod.fst).Nodup) (k : GoString) (v : Int) :
    (k, v) ∈ m ↔ mapLookup m k = some v := by
  induction m with
  | nil => simp [mapLookup]
  | cons e rest ih =>
    obtain ⟨k0, v0⟩ := e
    simp only [List.map_cons, List.nodup_cons] at h
    by_cases h0 : k0 = k
    · subst h0
      simp only [mapLookup, if_true, List.mem_cons, Prod.mk.injEq, true_and, Option.some.injEq]
      constructor
      · rintro (hv | hmem)
        · exact hv.symm
        · exact absurd (List.mem_map_of_mem Prod.fst hmem) h.1
      · intro hv; exact Or.inl hv.symm
    · simp only [mapLookup, if_neg h0, List.mem_cons, Prod.mk.injEq]
      rw [← ih h.2]
      constructor
      · rintro (⟨hk, _⟩ | hmem)
        · exact absurd hk.symm h0
        · exact hmem
      · intro hmem; exact Or.inr hmem

theorem perm_of_mapEq (m₁ m₂ : ErrMap) (h₁ : (m₁.map Prod.fst).Nodup)
    (h₂ : (m₂.map Prod.fst).Nodup) (h : MapEq m₁ m₂) : m₁.Perm m₂ := by
  rw [List.perm_ext_iff_of_nodup (List.Nodup.of_map _ h₁) (List.Nodup.of_map _ h₂)]
  rintro ⟨k, v⟩
  rw [mem_iff_mapLookup m₁ h₁, mem_iff_mapLookup m₂ h₂, h k]

theorem nodupKeys_mergeResults (rs : List WorkerResult) :
    ((mergeResults rs).combinedErrors.map Prod.fst).Nodup := by
  unfold mergeResults
  rw [(mergeResults_foldl rs _).2]
  exact nodupKeys_foldl _ _ (by simp)

theorem sortFloat64s_sorted (l : List ℚ) : (sortFloat64s l).Sorted (· ≤ ·) :=
  List.sorted_insertionSort _ l

theorem sortFloat64s_perm (l : List ℚ) : (sortFloat64s l).Perm l :=
  List.perm_insertionSort _ l

theorem sortFloat64s_eq_of_perm {l₁ l₂ : List ℚ} (h : l₁.Perm l₂) :
    sortFloat64s l₁ = sortFloat64s l₂ :=
  List.eq_of_perm_of_sorted
    (((sortFloat64s_perm l₁).trans h).trans (sortFloat64s_perm l₂).symm)
    (sortFloat64s_sorted l₁) (sortFloat64s_sorted l₂)

theorem percentiles_eq_of_perm {l₁ l₂ : List ℚ} (h : l₁.Perm l₂) :
    percentiles l₁ = percentiles l₂ := by
  unfold percentiles
  rw [sortFloat64s_eq_of_perm h, h.length_eq]

/-! ## Claims on the statistics step -/

/-- C1. For a merged latency sequence `L` (of a length a Go slice of `float64` can have,
at most `2^45` elements, the allocation limit of `2^48` bytes): if `L` is empty the reported pair (p50, p99) is (0, 0); otherwise no index
panics, p50 is the element of rank `len / 2 = floor(0.50 * len)` and p99 the element of rank
`99 * len / 100 = floor(0.99 * len)` of the ascending arrangement of `L`, both ranks being
valid indices computed by the `float64` expression of the code. -/
theorem c1_percentiles (L : List ℚ) (hcap : L.length ≤ 2 ^ 45) :
    (L = [] → percentiles L = some (0, 0)) ∧
    (L ≠ [] →
      rankIndex c050 L.length = L.length / 2 ∧
      rankIndex c099 L.length = 99 * L.length / 100 ∧
      L.length / 2 < L.length ∧ 99 * L.length / 100 < L.length ∧
      ∃ p50 p99, percentiles L = some (p50, p99) ∧
        (sortFloat64s L)[L.length / 2]? = some p50 ∧
        (sortFloat64s L)[99 * L.length / 100]? = some p99) ∧
    (sortFloat64s L).Sorted (· ≤ ·) ∧ (sortFloat64s L).Perm L := by
  refine ⟨?_, ?_, sortFloat64s_sorted L, sortFloat64s_perm L⟩
  · intro h; subst h; rfl
  · intro hne
    have hcap46 : L.length < 2 ^ 46 :=
      lt_of_le_of_lt hcap (Nat.pow_lt_pow_right (by decide) (by decide))
    have hpos : 0 < L.length := List.length_pos.mpr hne
    have hlen : (sortFloat64s L).length = L.length := (sortFloat64s_perm L).length_eq
    have h50 : L.length / 2 < (sortFloat64s L).length := by omega
    have h99 : 99 * L.length / 100 < (sortFloat64s L).length := by omega
    refine ⟨rankIndex_c050 _ hcap46, rankIndex_c099 _ hcap46, by omega, by omega,
      (sortFloat64s L)[L.length / 2], (sortFloat64s L)[99 * L.length / 100], ?_,
      List.getElem?_eq_getElem h50, List.getElem?_eq_getElem h99⟩
    unfold percentiles
    rw [if_pos hpos, rankIndex_c050 _ hcap46, rankIndex_c099 _ hcap46]
    simp only [List.getElem?_eq_getElem h50, List.getElem?_eq_getElem h99]

/-- C1, witness: `[1..10]` gives p50 = 6 and p99 = 10. -/
theorem c1_percentiles_witness :
    percentiles [1, 2, 3, 4, 5, 6, 7, 8, 9, 10] = some (6, 10) ∧
    rankIndex c050 10 = 5 ∧ rankIndex c099 10 = 9 ∧
    (sortFloat64s [1, 2, 3, 4, 5, 6, 7, 8, 9, 10]).Sorted (· ≤ ·) :=
  ⟨by decide,
   ((c1_percentiles [1, 2, 3, 4, 5, 6, 7, 8, 9, 10] (by decide)).2.1 (by decide)).1,
   ((c1_percentiles [1, 2, 3, 4, 5, 6, 7, 8, 9, 10] (by decide)).2.1 (by decide)).2.1,
   (c1_percentiles [1, 2, 3, 4, 5, 6, 7, 8, 9, 10] (by decide)).2.2.1⟩

/-- C2. Merging is independent of the order of arrival: for a permutation of the list of
worker results the merge yields the same number of latencies, the same histogram (every key
reads the same, the entries are the same up to order, the counts have the same total), the
same sorted latency sequence and the same percentiles. -/
theorem c2_merge_order_independent (rs₁ rs₂ : List WorkerResult) (h : rs₁.Perm rs₂) :
    (mergeResults rs₁).allLatencies.length = (mergeResults rs₂).allLatencies.length ∧
    (∀ k, mapLookup (mergeResults rs₁).combinedErrors k
        = mapLookup (mergeResults rs₂).combinedErrors k) ∧
    (mergeResults rs₁).combinedErrors.Perm (mergeResults rs₂).combinedErrors ∧
    histTotal (mergeResults rs₁).combinedErrors = histTotal (mergeResults rs₂).combinedErrors ∧
    sortFloat64s (mergeResults rs₁).allLatencies = sortFloat64s (mergeResults rs₂).allLatencies ∧
    percentiles (mergeResults rs₁).allLatencies = percentiles (mergeResults rs₂).allLatencies := by
  have hl : (mergeResults rs₁).allLatencies.Perm (mergeResults rs₂).allLatencies := by
    unfold mergeResults
    rw [(mergeResults_foldl rs₁ _).1, (mergeResults_foldl rs₂ _).1]
    simp only [List.nil_append]
    exact List.Perm.flatten (List.Perm.map _ h)
  have he : MapEq (mergeResults rs₁).combinedErrors (mergeResults rs₂).combinedErrors := by
    unfold mergeResults
    rw [(mergeResults_foldl rs₁ _).2, (mergeResults_foldl rs₂ _).2]
    exact foldl_mapAdd_perm (List.Perm.flatten (List.Perm.map _ h)) _ _ (fun _ => rfl)
  have hperm := perm_of_mapEq _ _ (nodupKeys_mergeResults rs₁) (nodupKeys_mergeResults rs₂) he
  refine ⟨hl.length_eq, he, hperm, ?_, sortFloat64s_eq_of_perm hl, percentiles_eq_of_perm hl⟩
  unfold histTotal
  exact (hperm.map Prod.snd).sum_eq

/-- C2, witness: two worker results merged in both orders. -/
theorem c2_merge_order_independent_witness :
    sortFloat64s (mergeResults
        [{ Latencies := [3, 1], Errors := [(noRows, 2)] },
         { Latencies := [2], Errors := [(ellipsis, 1), (noRows, 5)] }]).allLatencies
      = sortFloat64s (mergeResults
        [{ Latencies := [2], Errors := [(ellipsis, 1), (noRows, 5)] },
         { Latencies := [3, 1], Errors := [(noRows, 2)] }]).allLatencies ∧
    mapLookup (mergeResults
        [{ Latencies := [3, 1], Errors := [(noRows, 2)] },
         { Latencies := [2], Errors := [(ellipsis, 1), (noRows, 5)] }]).combinedErrors noRows
      = mapLookup (mergeResults
        [{ Latencies := [2], Errors := [(ellipsis, 1), (noRows, 5)] },
         { Latencies := [3, 1], Errors := [(noRows, 2)] }]).combinedErrors noRows :=
  ⟨(c2_merge_order_independent _ _ (List.Perm.swap _ _ [])).2.2.2.2.1,
   (c2_merge_order_independent _ _ (List.Perm.swap _ _ [])).2.1 noRows⟩

/-! ## Lemmas: worker loop -/

theorem wrapInt64_of_range (x : Int) (h0 : 0 ≤ x) (h1 : x < 2 ^ 63) : wrapInt64 x = x := by
  unfold wrapInt64
  have h63 : (2:Int) ^ 63 = 9223372036854775808 := by norm_num
  have h64 : (2:Int) ^ 64 = 18446744073709551616 := by norm_num
  rw [h63] at h1 ⊢
  rw [h64]
  omega

theorem runRequests_queryErrors (topK : Int) (msgs : List GoString) :
    ∀ (c : Counters) (my : WorkerResult),
      (runRequests topK c my (msgs.map Outcome.queryError)).2.Errors
        = msgs.foldl (fun m e => mapAdd m (errKey e) 1) my.Errors ∧
      (runRequests topK c my (msgs.map Outcome.queryError)).2.Latencies = my.Latencies ∧
      (runRequests topK c my (msgs.map Outcome.queryError)).1.totalQueries = c.totalQueries := by
  induction msgs with
  | nil => intro c my; simp [runRequests]
  | cons e rest ih =>
    intro c my
    have := ih { c with totalErrors := addUint64 c.totalErrors 1 }
      { my with Errors := mapAdd my.Errors (errKey e) 1 }
    simpa [runRequests, requestStep] using this

theorem record_lookup (K : GoString) (msgs : List GoString) :
    ∀ m : ErrMap, 0 ≤ (mapLookup m K).getD 0 →
      (mapLookup m K).getD 0 + ((msgs.map errKey).count K : Int) < 2 ^ 63 →
      mapLookup (msgs.foldl (fun m e => mapAdd m (errKey e) 1) m) K =
        if (msgs.map errKey).count K = 0 then mapLookup m K
        else some ((mapLookup m K).getD 0 + ((msgs.map errKey).count K : Int)) := by
  induction msgs with
  | nil => intro m _ _; simp
  | cons e rest ih =>
    intro m h0 h1
    simp only [List.foldl_cons, List.map_cons] at h1 ⊢
    by_cases he : errKey e = K
    · subst he
      rw [List.count_cons_self] at h1 ⊢
      push_cast at h1
      have hw : wrapInt64 ((mapLookup m (errKey e)).getD 0 + 1) = (mapLookup m (errKey e)).getD 0 + 1 :=
        wrapInt64_of_range _ (by omega) (by omega)
      have hl : mapLookup (mapAdd m (errKey e) 1) (errKey e)
          = some ((mapLookup m (errKey e)).getD 0 + 1) := by
        rw [mapLookup_mapAdd, if_pos rfl, hw]
      rw [ih (mapAdd m (errKey e) 1) (by rw [hl]; simp; omega) (by rw [hl]; simp; omega), hl]
      simp only [Option.getD_some, Nat.add_one_ne_zero, if_false]
      split
      · rename_i hz; rw [hz]; simp
      · push_cast; congr 1; ring
    · rw [List.count_cons_of_ne (fun h => he h.symm)] at h1 ⊢
      have hl : mapLookup (mapAdd m (errKey e) 1) K = mapLookup m K := by
        rw [mapLookup_mapAdd, if_neg he]
      rw [ih (mapAdd m (errKey e) 1) (by rw [hl]; exact h0) (by rw [hl]; exact h1), hl]

theorem record_single_bucket (K : GoString) (msgs : List GoString)
    (hk : ∀ e ∈ msgs, errKey e = K) :
    ∀ v : Int, 0 ≤ v → v + (msgs.length : Int) < 2 ^ 63 →
      msgs.foldl (fun m e => mapAdd m (errKey e) 1) [(K, v)] = [(K, v + (msgs.length : Int))] := by
  induction msgs with
  | nil => intro v _ _; simp
  | cons e rest ih =>
    intro v h0 h1
    have hke : errKey e = K := hk e (List.mem_cons_self _ _)
    simp only [List.length_cons] at h1
    push_cast at h1
    simp only [List.foldl_cons, hke, mapAdd, if_true]
    rw [wrapInt64_of_range (v + 1) (by omega) (by omega),
      ih (fun x hx => hk x (List.mem_cons_of_mem _ hx)) (v + 1) (by omega) (by omega)]
    simp only [List.length_cons]
    push_cast
    congr 2; ring

theorem count_two (m₁ m₂ : GoString) (hne : m₁ ≠ m₂) (msgs : List GoString)
    (h : ∀ m ∈ msgs, m = m₁ ∨ m = m₂) : msgs.length = msgs.count m₁ + msgs.count m₂ := by
  induction msgs with
  | nil => simp
  | cons e rest ih =>
    have ih' := ih (fun x hx => h x (List.mem_cons_of_mem _ hx))
    rcases h e (List.mem_cons_self _ _) with he | he
    · subst he
      rw [List.count_cons_self, List.count_cons_of_ne (fun h => hne h.symm), List.length_cons]
      omega
    · subst he
      rw [List.count_cons_self, List.count_cons_of_ne hne, List.length_cons]
      omega

theorem count_key_two (m₁ m₂ : GoString) (hk : errKey m₁ ≠ errKey m₂) (msgs : List GoString)
    (h : ∀ m ∈ msgs, m = m₁ ∨ m = m₂) :
    (msgs.map errKey).count (errKey m₁) = msgs.count m₁ ∧
      (msgs.map errKey).count (errKey m₂) = msgs.count m₂ := by
  have hne : m₁ ≠ m₂ := fun h => hk (by rw [h])
  induction msgs with
  | nil => simp
  | cons e rest ih =>
    have ih' := ih (fun x hx => h x (List.mem_cons_of_mem _ hx))
    rcases h e (List.mem_cons_self _ _) with he | he
    · subst he
      rw [List.map_cons, List.count_cons_self, List.count_cons_self,
        List.count_cons_of_ne hk.symm, List.count_cons_of_ne hne.symm]
      omega
    · subst he
      rw [List.map_cons, List.count_cons_self, List.count_cons_self,
        List.count_cons_of_ne hk, List.count_cons_of_ne hne]
      omega

/-! ## Claims on the error classification -/

/-- C3 (as amended). Two executor error messages that are both longer than 50 bytes and
share their first 50 bytes get the same histogram key, the 50-byte prefix followed by
`...`; a worker that records any non-empty sequence of occurrences of the two ends with one
single bucket, whose count is the number of occurrences recorded (the sum of the
occurrences of the two when they are distinct).  A message of 50 bytes or fewer is kept
whole as its key, without `...`, and so has a key different from that of every message
longer than 50 bytes (one that extends it included): a worker recording the two ends with
two buckets. -/
theorem c3_long_messages_share_bucket (m₁ m₂ : GoString) (topK : Int) (c : Counters)
    (h₁ : 50 < m₁.length) (h₂ : 50 < m₂.length) (hshare : m₁.take 50 = m₂.take 50) :
    errKey m₁ = m₁.take 50 ++ ellipsis ∧ errKey m₂ = m₂.take 50 ++ ellipsis ∧
    errKey m₁ = errKey m₂ ∧
    (∀ msgs : List GoString, msgs ≠ [] → (∀ m ∈ msgs, m = m₁ ∨ m = m₂) →
      (msgs.length : Int) < 2 ^ 63 →
      (runRequests topK c freshResult (msgs.map Outcome.queryError)).2.Errors
          = [(m₁.take 50 ++ ellipsis, (msgs.length : Int))] ∧
      (m₁ ≠ m₂ → msgs.length = msgs.count m₁ + msgs.count m₂)) ∧
    (∀ short long : GoString, short.length ≤ 50 → 50 < long.length →
      errKey short = short ∧ errKey long = long.take 50 ++ ellipsis ∧
      errKey short ≠ errKey long ∧
      (runRequests topK c freshResult
          [Outcome.queryError short, Outcome.queryError long]).2.Errors
        = [(short, 1), (long.take 50 ++ ellipsis, 1)]) := by
  have hk1 : errKey m₁ = m₁.take 50 ++ ellipsis := by
    unfold errKey; rw [if_pos h₁]
  have hk2 : errKey m₂ = m₂.take 50 ++ ellipsis := by
    unfold errKey; rw [if_pos h₂]
  have hkey : errKey m₁ = errKey m₂ := by
    rw [hk1, hk2, hshare]
  refine ⟨hk1, hk2, hkey, ?_, ?_⟩
  · intro msgs hne hall hlen
    refine ⟨?_, fun hd => count_two m₁ m₂ hd msgs hall⟩
    rw [← hk1, (runRequests_queryErrors topK msgs c freshResult).1]
    have hk : ∀ e ∈ msgs, errKey e = errKey m₁ := by
      intro e he
      rcases hall e he with h | h
      · rw [h]
      · rw [h, hkey]
    cases msgs with
    | nil => exact absurd rfl hne
    | cons e rest =>
      have hke : errKey e = errKey m₁ := hk e (List.mem_cons_self _ _)
      simp only [List.length_cons] at hlen ⊢
      push_cast at hlen ⊢
      simp only [List.foldl_cons, freshResult, mapAdd, hke]
      rw [wrapInt64_of_range (0 + 1) (by omega) (by norm_num),
        record_single_bucket (errKey m₁) rest (fun x hx => hk x (List.mem_cons_of_mem _ hx))
          (0 + 1) (by omega) (by omega)]
      congr 2; ring
  · intro short long hs hl
    have e1 : errKey short = short := by
      unfold errKey; rw [if_neg (by omega)]
    have e2 : errKey long = long.take 50 ++ ellipsis := by
      unfold errKey; rw [if_pos hl]
    have hne : errKey short ≠ errKey long := by
      rw [e1, e2]
      intro h
      have := congrArg List.length h
      simp [ellipsis, List.length_take] at this
      omega
    refine ⟨e1, e2, hne, ?_⟩
    simp only [runRequests, List.foldl_cons, List.foldl_nil, requestStep, freshResult, mapAdd,
      if_neg hne]
    rw [e1, e2]
    rfl

/-- C3, witness: two 60- and 55-byte messages with the same first 50 bytes, recorded
three times in all. -/
theorem c3_long_messages_share_bucket_witness :
    errKey msgLongX = msgLongX.take 50 ++ ellipsis ∧
    errKey msgLongX = errKey msgLongY ∧
    (runRequests 10 { totalQueries := 0, totalErrors := 0 } freshResult
        ([msgLongX, msgLongY, msgLongX].map Outcome.queryError)).2.Errors
      = [(msgLongX.take 50 ++ ellipsis, 3)] ∧
    errKey msg50 = msg50 ∧ errKey msg50 ≠ errKey msgLongX :=
  ⟨(c3_long_messages_share_bucket msgLongX msgLongY 10 { totalQueries := 0, totalErrors := 0 }
      (by decide) (by decide) (by decide)).1,
   (c3_long_messages_share_bucket msgLongX msgLongY 10 { totalQueries := 0, totalErrors := 0 }
      (by decide) (by decide) (by decide)).2.2.1,
   ((c3_long_messages_share_bucket msgLongX msgLongY 10 { totalQueries := 0, totalErrors := 0 }
      (by decide) (by decide) (by decide)).2.2.2.1 [msgLongX, msgLongY, msgLongX]
      (by decide) (by decide) (by decide)).1,
   ((c3_long_messages_share_bucket msgLongX msgLongY 10 { totalQueries := 0, totalErrors := 0 }
      (by decide) (by decide) (by decide)).2.2.2.2 msg50 msgLongX (by decide) (by decide)).1,
   ((c3_long_messages_share_bucket msgLongX msgLongY 10 { totalQueries := 0, totalErrors := 0 }
      (by decide) (by decide) (by decide)).2.2.2.2 msg50 msgLongX (by decide)
      (by decide)).2.2.1⟩

/-- C3, counterexample to the claim as stated: a message of exactly 50 bytes and a
51-byte message that extends it are distinct and share their first 50 bytes, yet they get
different keys (the first is kept as it is, the second is cut and gets `...`), and a worker
recording both ends with two buckets. -/
theorem c3_counterexample :
    msg50 ≠ msg51 ∧ msg50.take 50 = msg51.take 50 ∧ errKey msg50 ≠ errKey msg51 ∧
    (runRequests 10 { totalQueries := 0, totalErrors := 0 } freshResult
        [Outcome.queryError msg50, Outcome.queryError msg51]).2.Errors
      = [(msg50, 1), (msg50 ++ ellipsis, 1)] := by
  decide

/-- C4. Two executor error messages whose prefixes of length min(50, len) differ get
different histogram keys; hence in a worker that records occurrences of the two (fewer than
`2^63` in all), each key has its own bucket holding the number of occurrences of its own
message, and recording one of each leaves exactly the two buckets. -/
theorem c4_different_prefix_separate_buckets (m₁ m₂ : GoString) (topK : Int) (c : Counters)
    (hdiff : m₁.take 50 ≠ m₂.take 50) :
    errKey m₁ ≠ errKey m₂ ∧
    (runRequests topK c freshResult [Outcome.queryError m₁, Outcome.queryError m₂]).2.Errors
      = [(errKey m₁, 1), (errKey m₂, 1)] ∧
    ∀ msgs : List GoString, (∀ m ∈ msgs, m = m₁ ∨ m = m₂) → (msgs.length : Int) < 2 ^ 63 →
      m₁ ∈ msgs → m₂ ∈ msgs →
      mapLookup (runRequests topK c freshResult (msgs.map Outcome.queryError)).2.Errors
          (errKey m₁) = some (msgs.count m₁ : Int) ∧
      mapLookup (runRequests topK c freshResult (msgs.map Outcome.queryError)).2.Errors
          (errKey m₂) = some (msgs.count m₂ : Int) := by
  have hkey : errKey m₁ ≠ errKey m₂ := by
    unfold errKey
    intro h
    by_cases h1 : 50 < m₁.length <;> by_cases h2 : 50 < m₂.length
    · rw [if_pos h1, if_pos h2] at h
      exact hdiff (List.append_cancel_right h)
    · rw [if_pos h1, if_neg h2] at h
      have := congrArg List.length h
      simp [ellipsis, List.length_take] at this
      omega
    · rw [if_neg h1, if_pos h2] at h
      have := congrArg List.length h
      simp [ellipsis, List.length_take] at this
      omega
    · rw [if_neg h1, if_neg h2] at h
      rw [List.take_of_length_le (by omega), List.take_of_length_le (by omega)] at hdiff
      exact hdiff h
  refine ⟨hkey, ?_, ?_⟩
  · simp only [runRequests, List.foldl_cons, List.foldl_nil, requestStep, freshResult, mapAdd,
      if_neg hkey]
    rfl
  · intro msgs hall hlen hm1 hm2
    rw [(runRequests_queryErrors topK msgs c freshResult).1]
    obtain ⟨hc1, hc2⟩ := count_key_two m₁ m₂ hkey msgs hall
    have hcnt1 : msgs.count m₁ ≤ msgs.length := List.count_le_length _ _
    have hcnt2 : msgs.count m₂ ≤ msgs.length := List.count_le_length _ _
    have hp1 : 0 < msgs.count m₁ := List.count_pos_iff.mpr hm1
    have hp2 : 0 < msgs.count m₂ := List.count_pos_iff.mpr hm2
    constructor
    · rw [record_lookup (errKey m₁) msgs freshResult.Errors (by simp [freshResult, mapLookup])
        (by simp only [freshResult, mapLookup, Option.getD_none, hc1]; omega), hc1,
        if_neg (by omega)]
      simp [freshResult, mapLookup]
    · rw [record_lookup (errKey m₂) msgs freshResult.Errors (by simp [freshResult, mapLookup])
        (by simp only [freshResult, mapLookup, Option.getD_none, hc2]; omega), hc2,
        if_neg (by omega)]
      simp [freshResult, mapLookup]

/-- C4, witness: the 50-byte message and a 60-byte message with another byte at
position 3. -/
theorem c4_different_prefix_separate_buckets_witness :
    errKey msg50 ≠ errKey (98 :: 98 :: 98 :: msgLongX) :=
  (c4_different_prefix_separate_buckets msg50 (98 :: 98 :: 98 :: msgLongX) 10
    { totalQueries := 0, totalErrors := 0 } (by decide)).1

/-! ## Claims on the success counter and on scan errors -/

theorem sumLatencies_set (l : List WorkerResult) :
    ∀ (i : Nat) (old r : WorkerResult), l[i]? = some old →
      sumLatencies (l.set i r) + old.Latencies.length
        = sumLatencies l + r.Latencies.length := by
  induction l with
  | nil => intro i old r h; simp at h
  | cons x rest ih =>
    intro i old r h
    cases i with
    | zero =>
      simp only [List.getElem?_cons_zero, Option.some.injEq] at h
      subst h
      simp only [List.set_cons_zero, sumLatencies, List.map_cons, List.sum_cons]
      omega
    | succ j =>
      simp only [List.getElem?_cons_succ] at h
      have := ih j old r h
      simp only [List.set_cons_succ, sumLatencies, List.map_cons, List.sum_cons] at this ⊢
      omega

theorem requestStep_counts (topK : Int) (c : Counters) (my : WorkerResult) (o : Outcome) :
    ((requestStep topK c my o).1.totalQueries = c.totalQueries ∧
        (requestStep topK c my o).2.Latencies.length = my.Latencies.length) ∨
    ((requestStep topK c my o).1.totalQueries = addUint64 c.totalQueries 1 ∧
        (requestStep topK c my o).2.Latencies.length = my.Latencies.length + 1) := by
  cases o with
  | queryError msg => left; simp [requestStep]
  | rowSet scans e =>
    by_cases h : scanLoop topK scans 0 > 0
    · right; simp [requestStep, h]
    · left; simp [requestStep, h]

theorem workerStep_invariant (topK : Int) (s : RunState) (ev : Nat × Outcome)
    (h : s.counters.totalQueries = sumLatencies s.results % 2 ^ 64) :
    (workerStep topK s ev).counters.totalQueries
      = sumLatencies (workerStep topK s ev).results % 2 ^ 64 := by
  unfold workerStep
  cases hget : s.results[ev.1]? with
  | none => simpa using h
  | some my =>
    simp only []
    have hs := sumLatencies_set s.results ev.1 my (requestStep topK s.counters my ev.2).2 hget
    rcases requestStep_counts topK s.counters my ev.2 with ⟨h1, h2⟩ | ⟨h1, h2⟩
    · rw [h1, h]; rw [h2] at hs
      have : sumLatencies (s.results.set ev.1 (requestStep topK s.counters my ev.2).2)
          = sumLatencies s.results := by omega
      rw [this]
    · rw [h1, h]; rw [h2] at hs
      have : sumLatencies (s.results.set ev.1 (requestStep topK s.counters my ev.2).2)
          = sumLatencies s.results + 1 := by omega
      rw [this]
      unfold addUint64
      omega

theorem runWorkers_invariant (topK : Int) (evs : List (Nat × Outcome)) :
    ∀ s : RunState, s.counters.totalQueries = sumLatencies s.results % 2 ^ 64 →
      (runWorkers topK s evs).counters.totalQueries
        = sumLatencies (runWorkers topK s evs).results % 2 ^ 64 := by
  induction evs with
  | nil => intro s h; exact h
  | cons ev rest ih =>
    intro s h
    exact ih _ (workerStep_invariant topK s ev h)

theorem sumLatencies_perm {rs₁ rs₂ : List WorkerResult} (h : rs₁.Perm rs₂) :
    sumLatencies rs₁ = sumLatencies rs₂ := by
  unfold sumLatencies
  exact (h.map _).sum_eq

theorem mergeResults_length (rs : List WorkerResult) :
    (mergeResults rs).allLatencies.length = sumLatencies rs := by
  unfold mergeResults sumLatencies
  rw [(mergeResults_foldl rs _).1]
  simp only [List.nil_append, List.length_flatten, List.map_map]
  rfl

/-- C5. In every state reached from zeroed counters and fresh results by any interleaving
of worker requests (executor error, zero rows, at least one row), the `uint64` counter
`totalQueries` is the sum over the workers of `len(Latencies)` modulo `2^64`; so, the sum
being below `2^64` as it is for slices held in memory, the two are equal, and merging the
results in any order of arrival gives `len(allLatencies) = totalQueries`. -/
theorem c5_success_counter_matches (n : Nat) (topK : Int) (evs : List (Nat × Outcome))
    (hfit : sumLatencies (runWorkers topK (initRun n) evs).results < 2 ^ 64) :
    (runWorkers topK (initRun n) evs).counters.totalQueries
      = sumLatencies (runWorkers topK (initRun n) evs).results ∧
    ∀ rs : List WorkerResult, rs.Perm (runWorkers topK (initRun n) evs).results →
      (mergeResults rs).allLatencies.length
        = (runWorkers topK (initRun n) evs).counters.totalQueries := by
  have hinit : (initRun n).counters.totalQueries = sumLatencies (initRun n).results % 2 ^ 64 := by
    have : sumLatencies (initRun n).results = 0 := by
      simp [initRun, sumLatencies, freshResult]
    rw [this]; rfl
  have hinv := runWorkers_invariant topK evs (initRun n) hinit
  rw [Nat.mod_eq_of_lt hfit] at hinv
  refine ⟨hinv, ?_⟩
  intro rs hp
  rw [mergeResults_length, sumLatencies_perm hp, hinv]

/-- C5, witness: two workers, four requests (a success of each worker, an executor error,
a request without rows). -/
theorem c5_success_counter_matches_witness :
    (runWorkers 10 (initRun 2)
        [(0, Outcome.rowSet [true, true] 12), (1, Outcome.queryError msg50),
         (1, Outcome.rowSet [true] 7), (0, Outcome.rowSet [] 3)]).counters.totalQueries = 2 ∧
    (mergeResults (runWorkers 10 (initRun 2)
        [(0, Outcome.rowSet [true, true] 12), (1, Outcome.queryError msg50),
         (1, Outcome.rowSet [true] 7), (0, Outcome.rowSet [] 3)]).results).allLatencies.length = 2 :=
  ⟨(c5_success_counter_matches 2 10
      [(0, Outcome.rowSet [true, true] 12), (1, Outcome.queryError msg50),
       (1, Outcome.rowSet [true] 7), (0, Outcome.rowSet [] 3)] (by decide)).1,
   (c5_success_counter_matches 2 10
      [(0, Outcome.rowSet [true, true] 12), (1, Outcome.queryError msg50),
       (1, Outcome.rowSet [true] 7), (0, Outcome.rowSet [] 3)] (by decide)).2 _ (List.Perm.refl _)⟩

theorem scanLoop_all_scanned (topK : Int) (pre : List Bool) (hpre : ∀ b ∈ pre, b = true)
    (tail : List Bool) (htail : ∀ k, scanLoop topK tail k = k) :
    ∀ k : Nat, scanLoop topK (pre ++ tail) k = min (k + pre.length) (max k topK.toNat) := by
  induction pre with
  | nil =>
    intro k
    rw [List.nil_append, htail]
    simp
  | cons b rest ih =>
    intro k
    have hb : b = true := hpre b (List.mem_cons_self _ _)
    subst hb
    have ih' := ih (fun x hx => hpre x (List.mem_cons_of_mem _ hx)) (k + 1)
    rw [List.cons_append]
    unfold scanLoop
    simp only [if_true, List.length_cons]
    split
    · rw [ih']
      omega
    · omega

/-- C6 (as amended). When scanning a row of a request returns an error, after `pre`
rows that were scanned, the rows after it are not scanned (the row count is the one of the
scanned rows alone, at most `topK`); the request is not counted as a success when the error
comes at the first row: `totalQueries` and the latencies are left as they were and the
request goes to the `No rows` bucket; it is counted as a success, with its latency, when at
least one row was scanned before the error (`topK` being positive); either way the worker
goes on with the next request. -/
theorem c6_scan_error (topK : Int) (c : Counters) (my : WorkerResult) (pre post : List Bool)
    (elapsedMs : ℚ) (hpre : ∀ b ∈ pre, b = true) :
    scanLoop topK (pre ++ false :: post) 0 = min pre.length topK.toNat ∧
    (pre = [] →
      requestStep topK c my (Outcome.rowSet (pre ++ false :: post) elapsedMs)
        = ({ c with totalErrors := addUint64 c.totalErrors 1 },
           { my with Errors := mapAdd my.Errors noRows 1 })) ∧
    (pre ≠ [] → 0 < topK →
      requestStep topK c my (Outcome.rowSet (pre ++ false :: post) elapsedMs)
        = ({ c with totalQueries := addUint64 c.totalQueries 1 },
           { my with Latencies := my.Latencies ++ [elapsedMs] })) ∧
    ∀ rest : List Outcome,
      runRequests topK c my (Outcome.rowSet (pre ++ false :: post) elapsedMs :: rest)
        = runRequests topK
            (requestStep topK c my (Outcome.rowSet (pre ++ false :: post) elapsedMs)).1
            (requestStep topK c my (Outcome.rowSet (pre ++ false :: post) elapsedMs)).2 rest := by
  have hcount : scanLoop topK (pre ++ false :: post) 0 = min pre.length topK.toNat := by
    rw [scanLoop_all_scanned topK pre hpre (false :: post) (by intro k; simp [scanLoop]) 0]
    simp
  refine ⟨hcount, ?_, ?_, ?_⟩
  · intro h
    subst h
    simp [requestStep, scanLoop]
  · intro hne hk
    have hlen : 0 < pre.length := List.length_pos.mpr hne
    have : scanLoop topK (pre ++ false :: post) 0 > 0 := by
      rw [hcount]; omega
    simp only [requestStep, this, if_true]
  · intro rest
    rfl

/-- C6, witness: one row scanned, then a scan error, then one more row. -/
theorem c6_scan_error_witness :
    scanLoop 10 ([true] ++ false :: [true]) 0 = min [true].length (10 : Int).toNat :=
  (c6_scan_error 10 { totalQueries := 0, totalErrors := 0 } freshResult [true] [true] 5
    (by decide)).1

/-- C6, counterexample to the claim as stated: a request whose second row fails to scan,
after a first row that was scanned, is counted as a success: `totalQueries` goes from 0 to
1 and the latency is appended. -/
theorem c6_counterexample :
    requestStep 10 { totalQueries := 0, totalErrors := 0 } freshResult
        (Outcome.rowSet [true, false] 5)
      = ({ totalQueries := 1, totalErrors := 0 }, { Latencies := [5], Errors := [] }) := by
  decide

/-! ## Claim on the start barrier -/

theorem pastDone_set (l : List Phase) :
    ∀ (i : Nat) (old new : Phase), l[i]? = some old →
      pastDone (l.set i new) + (if old ≠ Phase.connecting then 1 else 0)
        = pastDone l + (if new ≠ Phase.connecting then 1 else 0) := by
  induction l with
  | nil => intro i old new h; simp at h
  | cons x rest ih =>
    intro i old new h
    cases i with
    | zero =>
      simp only [List.getElem?_cons_zero, Option.some.injEq] at h
      subst h
      simp only [List.set_cons_zero, pastDone, List.countP_cons]
      by_cases hx : x = Phase.connecting <;> by_cases hn : new = Phase.connecting <;>
        simp [hx, hn]
    | succ j =>
      simp only [List.getElem?_cons_succ] at h
      have := ih j old new h
      simp only [List.set_cons_succ, pastDone, List.countP_cons] at this ⊢
      omega

theorem mem_set_running (l : List Phase) (i : Nat) (p : Phase) (hp : p ≠ Phase.running)
    (h : Phase.running ∈ l.set i p) : Phase.running ∈ l := by
  rcases List.mem_or_eq_of_mem_set h with h' | h'
  · exact h'
  · exact absurd h'.symm hp

theorem barrierStep_invariant (n : Nat) (s s' : BarrierState) (a : BarrierAction)
    (hinv : BarrierInv n s) (hstep : barrierStep s a = some s') : BarrierInv n s' := by
  obtain ⟨hlen, hcnt, hdone, hwait, hclosed, hrun⟩ := hinv
  cases a with
  | pingFails i =>
    simp only [barrierStep] at hstep
    split at hstep
    · cases hstep; exact ⟨hlen, hcnt, hdone, hwait, hclosed, hrun⟩
    · cases hstep
  | pingOk i =>
    simp only [barrierStep] at hstep
    split at hstep
    · rename_i hc
      cases hstep
      have hset := pastDone_set s.phases i Phase.connecting Phase.ready hc.1
      simp at hset
      refine ⟨by simpa using hlen, ?_, ?_, ?_, hclosed, ?_⟩
      · simp only []; push_cast; omega
      · simp only []; omega
      · intro hw; have := hwait hw; omega
      · intro hr; exact hrun (mem_set_running _ _ _ (by decide) hr)
    · cases hstep
  | waitReturns =>
    simp only [barrierStep] at hstep
    split at hstep
    · rename_i hc
      cases hstep
      refine ⟨hlen, hcnt, hdone, fun _ => hc.2, fun h => ?_, hrun⟩
      · rfl
    · cases hstep
  | closeReady =>
    simp only [barrierStep] at hstep
    split at hstep
    · rename_i hc
      cases hstep
      exact ⟨hlen, hcnt, hdone, hwait, fun _ => hc.1, fun _ => rfl⟩
    · cases hstep
  | receive i =>
    simp only [barrierStep] at hstep
    split at hstep
    · rename_i hc
      cases hstep
      have hset := pastDone_set s.phases i Phase.ready Phase.running hc.1
      simp at hset
      refine ⟨by simpa using hlen, hcnt, ?_, hwait, hclosed, fun _ => hc.2⟩
      simp only []; omega
    · cases hstep

theorem runBarrier_invariant (n : Nat) (acts : List BarrierAction) :
    ∀ s s' : BarrierState, BarrierInv n s → runBarrier s acts = some s' → BarrierInv n s' := by
  induction acts with
  | nil =>
    intro s s' hinv h
    simp only [runBarrier, Option.some.injEq] at h
    subst h; exact hinv
  | cons a rest ih =>
    intro s s' hinv h
    simp only [runBarrier] at h
    cases hs : barrierStep s a with
    | none => rw [hs] at h; cases h
    | some s₁ =>
      rw [hs] at h
      exact ih s₁ s' (barrierStep_invariant n s s₁ a hinv hs) h

theorem initBarrier_invariant (n : Nat) : BarrierInv n (initBarrier n) := by
  refine ⟨by simp [initBarrier], by simp [initBarrier], ?_, by simp [initBarrier],
    by simp [initBarrier], ?_⟩
  · simp [initBarrier, pastDone, List.countP_replicate]
  · simp [initBarrier, List.mem_replicate]

/-- C7. Start barrier: in every state reached from the start of the ramp-up of `n`
workers by any schedule of steps, if some worker has passed the release gate (its receive
from `readyChan` has returned and it is in its timed loop), then `readyChan` is closed,
`startBarrier.Wait()` has returned, `startBarrier.Done()` has been called exactly `n` times
and no worker is still in its ping loop. -/
theorem c7_start_barrier (n : Nat) (acts : List BarrierAction) (s : BarrierState)
    (hreach : runBarrier (initBarrier n) acts = some s) (hsome : Phase.running ∈ s.phases) :
    s.readyClosed = true ∧ s.waitReturned = true ∧ s.counter = 0 ∧ s.doneCalls = n ∧
    ∀ p ∈ s.phases, p ≠ Phase.connecting := by
  obtain ⟨hlen, hcnt, hdone, hwait, hclosed, hrun⟩ :=
    runBarrier_invariant n acts _ s (initBarrier_invariant n) hreach
  have h1 := hrun hsome
  have h2 := hclosed h1
  have h3 := hwait h2
  have h4 : s.doneCalls = n := by omega
  refine ⟨h1, h2, h3, h4, ?_⟩
  have hall : pastDone s.phases = s.phases.length := by omega
  intro p hp
  have := (List.countP_eq_length.mp hall) p hp
  simpa using this

/-- C7, witness: two workers; the second pings once in vain, both become ready, `main`
passes the barrier and closes the channel, the second worker starts. -/
theorem c7_start_barrier_witness :
    runBarrier (initBarrier 2)
        [BarrierAction.pingFails 1, BarrierAction.pingOk 0, BarrierAction.pingOk 1,
         BarrierAction.waitReturns, BarrierAction.closeReady, BarrierAction.receive 1]
      = some { counter := 0, doneCalls := 2, phases := [Phase.ready, Phase.running],
               waitReturned := true, readyClosed := true } ∧
    Phase.running ∈ [Phase.ready, Phase.running] ∧
    ∀ p ∈ [Phase.ready, Phase.running], p ≠ Phase.connecting :=
  ⟨by decide, by decide,
   ((c7_start_barrier 2
      [BarrierAction.pingFails 1, BarrierAction.pingOk 0, BarrierAction.pingOk 1,
       BarrierAction.waitReturns, BarrierAction.closeReady, BarrierAction.receive 1]
      { counter := 0, doneCalls := 2, phases := [Phase.ready, Phase.running],
        waitReturned := true, readyClosed := true } (by decide) (by decide)).2.2.2.2)⟩

/-! ## Claim on the monitor -/

theorem bitLen_le_of_lt (x m : Nat) (h : x < 2 ^ m) : bitLen x ≤ m := by
  rcases Nat.eq_zero_or_pos x with h0 | h0
  · subst h0; simp [bitLen, bitLenAux]
  · have h1 := two_pow_bitLen_le x h0
    have h2 : 2 ^ (bitLen x - 1) < 2 ^ m := lt_of_le_of_lt h1 h
    have := (Nat.pow_lt_pow_iff_right (by decide : 1 < 2)).mp h2
    omega

theorem seconds_ge_whole (ns : Nat) :
    roundFloat64 (ns / 10 ^ 9) * 2 ^ 128 ≤ secondsScaled ns := by
  obtain ⟨c, hc, he⟩ := roundFloat64_repr (ns / 10 ^ 9)
  unfold secondsScaled
  have e : roundFloat64 (ns / 10 ^ 9) * 2 ^ 128 = c * 2 ^ (bitLen (ns / 10 ^ 9) - 53 + 128) := by
    rw [he, Nat.mul_assoc, ← pow_add]
  rw [e]
  apply roundFloat64_ge_of_repr _ _ _ hc
  rw [← e]
  exact Nat.le_add_right _ _

theorem durationReached_of_whole (elapsed : Nat) (d : Int)
    (h : (roundFloat64 d.toNat) * 10 ^ 9 ≤ sinceStart elapsed) :
    durationReached elapsed d = true := by
  unfold durationReached float64OfInt
  rw [decide_eq_true_iff]
  generalize sinceStart elapsed = ns at h ⊢
  have hs := seconds_ge_whole ns
  split
  · obtain ⟨c, hc, he⟩ := roundFloat64_repr d.toNat
    have hsec : roundFloat64 d.toNat ≤ ns / 10 ^ 9 :=
      (Nat.le_div_iff_mul_le (by norm_num)).mpr h
    have h1 : roundFloat64 d.toNat ≤ roundFloat64 (ns / 10 ^ 9) := by
      rw [he] at hsec ⊢
      exact roundFloat64_ge_of_repr _ _ _ hc hsec
    have h2 := Nat.mul_le_mul_right (2 ^ 128) h1
    have h3 := h2.trans hs
    exact_mod_cast h3
  · have h0 : (0:Int) ≤ (roundFloat64 (-d).toNat : Int) := Int.ofNat_nonneg _
    have h1 : (0:Int) ≤ (secondsScaled ns : Int) := Int.ofNat_nonneg _
    have hp : (0:Int) ≤ (roundFloat64 (-d).toNat : Int) * 2 ^ 128 :=
      Int.mul_nonneg h0 (pow_nonneg (by norm_num) 128)
    rw [neg_mul]
    exact le_trans (neg_nonpos.mpr hp) h1

theorem monitor_not_reached (d : Int) (t : Nat → Nat) (n : Nat) :
    ∀ start, (∀ j, start ≤ j → j < start + n → durationReached (t j) d = false) →
      monitor d (ticksFrom t start n)
        = { events := List.replicate n MonitorEvent.printQPS, returned := false } := by
  induction n with
  | zero => intro start _; rfl
  | succ m ih =>
    intro start h
    have h0 := h start le_rfl (by omega)
    have ih' := ih (start + 1) (fun j hj1 hj2 => h j (by omega) (by omega))
    simp only [ticksFrom, monitor, h0, ih', List.replicate_succ]
    rfl

theorem monitor_reached (d : Int) (t : Nat → Nat) (m : Nat) :
    ∀ start extra, (∀ j, start ≤ j → j < start + m → durationReached (t j) d = false) →
      durationReached (t (start + m)) d = true →
      monitor d (ticksFrom t start (m + 1 + extra))
        = { events := List.replicate m MonitorEvent.printQPS ++ [MonitorEvent.cancel],
            returned := true } := by
  induction m with
  | zero =>
    intro start extra _ h1
    have e : 0 + 1 + extra = extra + 1 := by omega
    rw [e]
    simp only [ticksFrom, monitor]
    rw [Nat.add_zero] at h1
    rw [h1]
    rfl
  | succ k ih =>
    intro start extra h h1
    have h0 := h start le_rfl (by omega)
    have e : k + 1 + 1 + extra = (k + 1 + extra) + 1 := by omega
    have ih' := ih (start + 1) extra (fun j hj1 hj2 => h j (by omega) (by omega))
      (by rw [show start + 1 + k = start + (k + 1) by omega]; exact h1)
    rw [e]
    simp only [ticksFrom, monitor, h0, ih', List.replicate_succ]
    rfl

theorem divBillion_le (nsec : Nat) (h : nsec < 10 ^ 9) :
    divBillion nsec ≤ 9007199246352383 * 2 ^ 75 := by
  have h9 : (10:Nat) ^ 9 = 1000000000 := by norm_num
  have h53 : (2:Nat) ^ 53 = 9007199254740992 := by norm_num
  rw [h9] at h
  have hsmall : roundFloat64 nsec = nsec := roundFloat64_small nsec (by rw [h53]; omega)
  unfold divBillion
  simp only [hsmall]
  have hxlt : nsec * 2 ^ 128 / 10 ^ 9 < 2 ^ 128 := by
    apply (Nat.div_lt_iff_lt_mul (by norm_num)).mpr
    rw [Nat.mul_comm (2 ^ 128)]
    exact Nat.mul_lt_mul_of_pos_right (by rw [h9]; exact h) (Nat.two_pow_pos 128)
  have hb := bitLen_le_of_lt _ _ hxlt
  generalize hs : bitLen (nsec * 2 ^ 128 / 10 ^ 9) - 53 = s at *
  have hs75 : s ≤ 75 := by omega
  have hpow : 2 ^ (75 - s) * 2 ^ s = 2 ^ 75 := by
    rw [← pow_add]; congr 1; omega
  have hden : 0 < 10 ^ 9 * 2 ^ s := Nat.mul_pos (by norm_num) (Nat.two_pow_pos s)
  have hq : nsec * 2 ^ 128 / (10 ^ 9 * 2 ^ s) < 9007199246352383 * 2 ^ (75 - s) := by
    apply (Nat.div_lt_iff_lt_mul hden).mpr
    have e1 : nsec * 2 ^ 128 = nsec * 9007199254740992 * 2 ^ 75 := by
      rw [Nat.mul_assoc]; congr 1
    have e2 : 9007199246352383 * 2 ^ (75 - s) * (10 ^ 9 * 2 ^ s)
        = 9007199246352383 * 1000000000 * 2 ^ 75 := by
      rw [← hpow, h9]; ring
    rw [e1, e2]
    exact Nat.mul_lt_mul_of_pos_right (by omega) (Nat.two_pow_pos 75)
  have hfin : (nsec * 2 ^ 128 / (10 ^ 9 * 2 ^ s) + 1) * 2 ^ s ≤ 9007199246352383 * 2 ^ 75 := by
    calc (nsec * 2 ^ 128 / (10 ^ 9 * 2 ^ s) + 1) * 2 ^ s
        ≤ 9007199246352383 * 2 ^ (75 - s) * 2 ^ s := Nat.mul_le_mul_right _ hq
      _ = 9007199246352383 * 2 ^ 75 := by rw [Nat.mul_assoc, hpow]
  have hle : nsec * 2 ^ 128 / (10 ^ 9 * 2 ^ s) * 2 ^ s
      ≤ (nsec * 2 ^ 128 / (10 ^ 9 * 2 ^ s) + 1) * 2 ^ s :=
    Nat.mul_le_mul_right _ (Nat.le_succ _)
  split
  · exact hle.trans hfin
  · split
    · split
      · exact hle.trans hfin
      · exact hfin
    · exact hfin

theorem sinceStart_of_lt (elapsed : Nat) (h : elapsed < 2 ^ 63) : sinceStart elapsed = elapsed := by
  unfold sinceStart maxDuration
  exact Nat.min_eq_left (by omega)

theorem durationReached_false_before (elapsed : Nat) (d : Int) (hd0 : 0 < d) (hd : d ≤ 2 ^ 24)
    (h : (elapsed : Int) < d * 10 ^ 9) : durationReached elapsed d = false := by
  have h9 : (10:Nat) ^ 9 = 1000000000 := by norm_num
  have h9i : (10:Int) ^ 9 = 1000000000 := by norm_num
  have h24 : (2:Int) ^ 24 = 16777216 := by norm_num
  have h53 : (2:Nat) ^ 53 = 9007199254740992 := by norm_num
  have h63 : (2:Nat) ^ 63 = 9223372036854775808 := by norm_num
  have h75 : (2:Nat) ^ 75 = 37778931862957161709568 := by norm_num
  have h99 : (2:Nat) ^ 99 = 633825300114114700748351602688 := by norm_num
  have h128 : (2:Nat) ^ 128 = 340282366920938463463374607431768211456 := by norm_num
  have h128i : (2:Int) ^ 128 = 340282366920938463463374607431768211456 := by norm_num
  have h152 : (2:Nat) ^ 152 = 5708990770823839524233143877797980545530986496 := by norm_num
  rw [h9i] at h
  rw [h24] at hd
  obtain ⟨D, rfl⟩ : ∃ D : Nat, d = (D : Int) := ⟨d.toNat, by omega⟩
  have hD : 0 < D := by omega
  have hD2 : D ≤ 16777216 := by omega
  have hsince : sinceStart elapsed = elapsed := sinceStart_of_lt _ (by rw [h63]; omega)
  have hsecD : elapsed / 10 ^ 9 < D := by
    apply (Nat.div_lt_iff_lt_mul (by norm_num)).mpr
    rw [h9]; omega
  have hsec : roundFloat64 (elapsed / 10 ^ 9) = elapsed / 10 ^ 9 :=
    roundFloat64_small _ (by rw [h53]; omega)
  have hf := divBillion_le (elapsed % 10 ^ 9) (Nat.mod_lt _ (by norm_num))
  have hDf : roundFloat64 D = D := roundFloat64_small _ (by rw [h53]; omega)
  unfold durationReached float64OfInt secondsScaled
  rw [decide_eq_false_iff_not, if_pos (by omega), Int.toNat_ofNat, hDf, h128i, hsince, hsec]
  generalize elapsed / 10 ^ 9 = sec at *
  generalize divBillion (elapsed % 10 ^ 9) = f at *
  rw [h75] at hf
  rw [h128]
  generalize hx : sec * 340282366920938463463374607431768211456 + f = x
  have hxlt : x < 2 ^ 152 := by rw [h152]; omega
  have hbit := bitLen_le_of_lt x 152 hxlt
  have hpow : 2 ^ (bitLen x - 53) ≤ 2 ^ 99 := Nat.pow_le_pow_right (by decide) (by omega)
  have hnear := (roundShift_near x (bitLen x - 53)).1
  unfold roundFloat64
  generalize roundShift x (bitLen x - 53) = R at *
  generalize 2 ^ (bitLen x - 53) = g at *
  rw [h99] at hpow
  omega

/-- C9 (as amended). The monitor enforces a configured duration `d` of at most `2^24`
seconds.  For every such `d` and every stream `t` of tick times (the time, in nanoseconds,
gone by since `start` at the test of each tick) that is strictly increasing, or of which
some tick is at or after `d` seconds, there is a tick `k`, the first whose elapsed time is
at least `d` seconds, such that: the test `time.Since(start).Seconds() >= float64(d)` holds
at tick `k` and at no earlier tick; as long as the monitor has received at most `k` ticks
it has printed one line per tick, has not called `cancel` and has not returned; once it has
received more than `k` ticks it has printed `k` lines (none at tick `k`), has called
`cancel` exactly once, at tick `k`, and has returned. -/
theorem c9_monitor_enforces_duration (d : Int) (t : Nat → Nat) (hd : d ≤ 2 ^ 24)
    (hticks : StrictMono t ∨ ∃ j, d * 10 ^ 9 ≤ (t j : Int)) :
    ∃ k : Nat,
      d * 10 ^ 9 ≤ (t k : Int) ∧ (∀ j, j < k → (t j : Int) < d * 10 ^ 9) ∧
      durationReached (t k) d = true ∧ (∀ j, j < k → durationReached (t j) d = false) ∧
      (∀ n, n ≤ k → monitor d (ticksFrom t 0 n)
        = { events := List.replicate n MonitorEvent.printQPS, returned := false }) ∧
      (∀ n, k < n →
        monitor d (ticksFrom t 0 n)
          = { events := List.replicate k MonitorEvent.printQPS ++ [MonitorEvent.cancel],
              returned := true } ∧
        (monitor d (ticksFrom t 0 n)).events.count MonitorEvent.cancel = 1) := by
  have h9 : (10:Int) ^ 9 = 1000000000 := by norm_num
  have h24 : (2:Int) ^ 24 = 16777216 := by norm_num
  have h53 : (2:Nat) ^ 53 = 9007199254740992 := by norm_num
  have h63 : (2:Nat) ^ 63 = 9223372036854775808 := by norm_num
  rw [h24] at hd
  have hex : ∃ j, d * 10 ^ 9 ≤ (t j : Int) := by
    rcases hticks with hmono | hreach
    · refine ⟨(d * 10 ^ 9).toNat, ?_⟩
      have := hmono.id_le (d * 10 ^ 9).toNat
      have h2 : ((d * 10 ^ 9).toNat : Int) ≤ (t (d * 10 ^ 9).toNat : Int) := by exact_mod_cast this
      have h3 := Int.self_le_toNat (d * 10 ^ 9)
      exact h3.trans h2
    · exact hreach
  have hk := Nat.find_spec hex
  have hmin : ∀ j, j < Nat.find hex → (t j : Int) < d * 10 ^ 9 := by
    intro j hj
    have := Nat.find_min hex hj
    omega
  have hreachK : ∀ e : Nat, d * 10 ^ 9 ≤ (e : Int) → durationReached e d = true := by
    intro e he
    apply durationReached_of_whole
    rw [h9] at he
    by_cases hd0 : 0 ≤ d
    · have hsmall : roundFloat64 d.toNat = d.toNat :=
        roundFloat64_small _ (by rw [h53]; omega)
      rw [hsmall]
      unfold sinceStart maxDuration
      rw [h63]
      have hD : (d.toNat : Int) = d := Int.toNat_of_nonneg hd0
      have h10 : (10:Nat) ^ 9 = 1000000000 := by norm_num
      rw [h10]
      apply Nat.le_min.mpr
      constructor <;> omega
    · have : d.toNat = 0 := by omega
      rw [this]
      simp [roundFloat64, roundShift, bitLen, bitLenAux]
  have hbefore : ∀ e : Nat, (e : Int) < d * 10 ^ 9 → durationReached e d = false := by
    intro e he
    have hd0 : 0 < d := by
      by_contra hn
      have : (0:Int) ≤ (e : Int) := Int.ofNat_nonneg _
      rw [h9] at he
      omega
    exact durationReached_false_before e d hd0 (by rw [h24]; exact hd) he
  have hfalse : ∀ j, j < Nat.find hex → durationReached (t j) d = false :=
    fun j hj => hbefore _ (hmin j hj)
  have htrue : durationReached (t (Nat.find hex)) d = true := hreachK _ hk
  have hrun : ∀ n, Nat.find hex < n → monitor d (ticksFrom t 0 n)
      = { events := List.replicate (Nat.find hex) MonitorEvent.printQPS ++ [MonitorEvent.cancel],
          returned := true } := by
    intro n hn
    have e : n = Nat.find hex + 1 + (n - Nat.find hex - 1) := by omega
    rw [e]
    exact monitor_reached d t (Nat.find hex) 0 _ (fun j _ hj => hfalse j (by omega))
      (by rw [Nat.zero_add]; exact htrue)
  refine ⟨Nat.find hex, hk, hmin, htrue, hfalse, ?_, ?_⟩
  · intro n hn
    exact monitor_not_reached d t n 0 (fun j _ hj => hfalse j (by omega))
  · intro n hn
    refine ⟨hrun n hn, ?_⟩
    rw [hrun n hn]
    simp [List.count_replicate]

set_option maxRecDepth 20000 in
/-- C9, witness: a tick every 5 seconds and a duration of 12 seconds: two lines, then
`cancel` at the third tick (15 s). -/
theorem c9_monitor_enforces_duration_witness :
    StrictMono (fun k : Nat => 5000000000 * (k + 1)) ∧
    monitor 12 (ticksFrom (fun k : Nat => 5000000000 * (k + 1)) 0 5)
      = { events := [MonitorEvent.printQPS, MonitorEvent.printQPS, MonitorEvent.cancel],
          returned := true } ∧
    ∃ k : Nat, (12 : Int) * 10 ^ 9 ≤ ((5000000000 * (k + 1) : Nat) : Int) ∧
      ∀ j, j < k → ((5000000000 * (j + 1) : Nat) : Int) < 12 * 10 ^ 9 :=
  ⟨fun a b h => by simp only; omega, by decide,
   (c9_monitor_enforces_duration 12 (fun k : Nat => 5000000000 * (k + 1)) (by norm_num)
      (Or.inl (fun a b h => by simp only; omega))).imp (fun _ h => ⟨h.1, h.2.1⟩)⟩

set_option maxRecDepth 20000 in
/-- C9, counterexample to the claim as stated: with a duration of `2^24 + 1 = 16777217`
seconds and ticks at 5 s and at 16777216.999999999 s, the monitor calls `cancel` at the
second tick, one nanosecond before 16777217 seconds have gone by: in `float64` the sum
`16777216 + 0.999999999` is `16777217`. -/
theorem c9_counterexample :
    (5000000000 : Nat) < 16777216999999999 ∧
    monitor 16777217 [5000000000, 16777216999999999]
      = { events := [MonitorEvent.printQPS, MonitorEvent.cancel], returned := true } ∧
    ((16777216999999999 : Nat) : Int) < 16777217 * 10 ^ 9 := by
  decide

/-! ## Lemmas: trimming -/

theorem leadingWidth_eq_zero_iff (runes : List GoString) (hne : ∀ e ∈ runes, e ≠ [])
    (s : GoString) : leadingWidth runes s = 0 ↔ ∀ e ∈ runes, ¬ e <+: s := by
  unfold leadingWidth
  cases hf : runes.find? (fun e => e.isPrefixOf s) with
  | none =>
    simp only [true_iff]
    intro e he hp
    have := List.find?_eq_none.mp hf e he
    exact this (List.isPrefixOf_iff_prefix.mpr hp)
  | some e =>
    have hmem := List.mem_of_find?_eq_some hf
    have hp := List.find?_some hf
    simp only []
    constructor
    · intro h0
      exact absurd (List.length_eq_zero.mp h0) (hne e hmem)
    · intro h
      exact absurd (List.isPrefixOf_iff_prefix.mp hp) (h e hmem)

theorem leadingWidth_spec (runes : List GoString) (s : GoString)
    (h : leadingWidth runes s ≠ 0) :
    ∃ e ∈ runes, e <+: s ∧ leadingWidth runes s = e.length := by
  unfold leadingWidth at h ⊢
  cases hf : runes.find? (fun e => e.isPrefixOf s) with
  | none => rw [hf] at h; exact absurd rfl h
  | some e =>
    have hp := List.find?_some hf
    exact ⟨e, List.mem_of_find?_eq_some hf, List.isPrefixOf_iff_prefix.mp hp, rfl⟩

theorem leadingWidth_le (runes : List GoString) (s : GoString) :
    leadingWidth runes s ≤ s.length := by
  by_cases h : leadingWidth runes s = 0
  · omega
  · obtain ⟨e, _, hp, hw⟩ := leadingWidth_spec runes s h
    rw [hw]; exact hp.length_le

theorem trimFrontAux_of_zero (runes : List GoString) (fuel : Nat) (s : GoString)
    (h : leadingWidth runes s = 0) : trimFrontAux runes fuel s = s := by
  cases fuel with
  | zero => rfl
  | succ f => simp [trimFrontAux, h]

theorem trimFrontAux_width (runes : List GoString) (hne : ∀ e ∈ runes, e ≠ []) (fuel : Nat) :
    ∀ s : GoString, s.length ≤ fuel → leadingWidth runes (trimFrontAux runes fuel s) = 0 := by
  induction fuel with
  | zero =>
    intro s hs
    have : s = [] := List.length_eq_zero.mp (by omega)
    subst this
    rw [trimFrontAux, leadingWidth_eq_zero_iff runes hne]
    intro e he hp
    exact hne e he (List.prefix_nil.mp hp)
  | succ f ih =>
    intro s hs
    unfold trimFrontAux
    split
    · assumption
    · rename_i hw
      apply ih
      rw [List.length_drop]
      omega

theorem trimFrontAux_suffix (runes : List GoString) (fuel : Nat) :
    ∀ s : GoString, trimFrontAux runes fuel s <:+ s := by
  induction fuel with
  | zero => intro s; exact List.suffix_refl s
  | succ f ih =>
    intro s
    unfold trimFrontAux
    split
    · exact List.suffix_refl s
    · exact (ih _).trans (List.drop_suffix _ s)

theorem leadingWidth_nil (runes : List GoString) (hne : ∀ e ∈ runes, e ≠ []) :
    leadingWidth runes [] = 0 := by
  rw [leadingWidth_eq_zero_iff runes hne]
  intro e he hp
  exact hne e he (List.prefix_nil.mp hp)

theorem trimFrontAux_fuel (runes : List GoString) (hne : ∀ e ∈ runes, e ≠ []) (fuel₁ : Nat) :
    ∀ (fuel₂ : Nat) (s : GoString), s.length ≤ fuel₁ → s.length ≤ fuel₂ →
      trimFrontAux runes fuel₁ s = trimFrontAux runes fuel₂ s := by
  induction fuel₁ with
  | zero =>
    intro fuel₂ s hs _
    have : s = [] := List.length_eq_zero.mp (by omega)
    subst this
    rw [trimFrontAux_of_zero runes fuel₂ [] (leadingWidth_nil runes hne)]
    rfl
  | succ f ih =>
    intro fuel₂ s hs₁ hs₂
    cases fuel₂ with
    | zero =>
      have : s = [] := List.length_eq_zero.mp (by omega)
      subst this
      rw [trimFrontAux_of_zero runes (f + 1) [] (leadingWidth_nil runes hne)]
      rfl
    | succ g =>
      unfold trimFrontAux
      split
      · rfl
      · rename_i hw
        have hw1 := leadingWidth_le runes s
        apply ih <;> rw [List.length_drop] <;> omega

theorem spaceRunes_ne_nil : ∀ e ∈ spaceRunes, e ≠ [] := by decide

theorem spaceRunesRev_ne_nil : ∀ e ∈ spaceRunesRev, e ≠ [] := by decide

theorem spaceRunes_prefix_free :
    ∀ e₁ ∈ spaceRunes, ∀ e₂ ∈ spaceRunes, e₁.isPrefixOf e₂ = true → e₁ = e₂ := by decide

theorem spaceRunes_cr : ∀ e ∈ spaceRunes, e.getLast? = some 13 → e = [13] := by decide

theorem leadingWidth_concat_cr_of_pos (s : GoString) (h : leadingWidth spaceRunes s ≠ 0) :
    leadingWidth spaceRunes (s ++ [13]) = leadingWidth spaceRunes s := by
  obtain ⟨e, he, hp, hw⟩ := leadingWidth_spec spaceRunes s h
  have hp' : e <+: s ++ [13] := hp.trans (List.prefix_append s [13])
  have hne : leadingWidth spaceRunes (s ++ [13]) ≠ 0 := by
    intro h0
    exact (leadingWidth_eq_zero_iff spaceRunes spaceRunes_ne_nil _).mp h0 e he hp'
  obtain ⟨e', he', hq, hw'⟩ := leadingWidth_spec spaceRunes (s ++ [13]) hne
  have : e = e' := by
    rcases List.prefix_or_prefix_of_prefix hp' hq with h1 | h1
    · exact spaceRunes_prefix_free e he e' he' (List.isPrefixOf_iff_prefix.mpr h1)
    · exact (spaceRunes_prefix_free e' he' e he (List.isPrefixOf_iff_prefix.mpr h1)).symm
  rw [hw, hw', this]

theorem leadingWidth_concat_cr_of_zero (s : GoString) (hs : s ≠ [])
    (h : leadingWidth spaceRunes s = 0) : leadingWidth spaceRunes (s ++ [13]) = 0 := by
  rw [leadingWidth_eq_zero_iff spaceRunes spaceRunes_ne_nil] at h ⊢
  intro e he hp
  rcases List.prefix_concat_iff.mp hp with h1 | h1
  · have hl : e.getLast? = some 13 := by rw [h1]; simp
    have := spaceRunes_cr e he hl
    rw [this] at h1
    have hlen := congrArg List.length h1
    simp at hlen
    exact hs hlen
  · exact h e he h1

theorem trimFrontAux_concat_cr (fuel : Nat) :
    ∀ s : GoString, s.length ≤ fuel →
      trimFrontAux spaceRunes (fuel + 1) (s ++ [13]) =
        if trimFrontAux spaceRunes fuel s = [] then []
        else trimFrontAux spaceRunes fuel s ++ [13] := by
  have hcr : leadingWidth spaceRunes [13] = 1 := by decide
  have hone : ∀ f, trimFrontAux spaceRunes (f + 1) [13] = [] := by
    intro f
    unfold trimFrontAux
    rw [hcr, if_neg (by decide)]
    exact trimFrontAux_of_zero _ _ _ (leadingWidth_nil _ spaceRunes_ne_nil)
  induction fuel with
  | zero =>
    intro s hs
    have : s = [] := List.length_eq_zero.mp (by omega)
    subst this
    rw [List.nil_append, hone]
    simp [trimFrontAux]
  | succ f ih =>
    intro s hs
    by_cases hnil : s = []
    · subst hnil
      rw [List.nil_append, hone,
        trimFrontAux_of_zero _ _ _ (leadingWidth_nil _ spaceRunes_ne_nil)]
      simp
    · by_cases hw : leadingWidth spaceRunes s = 0
      · rw [trimFrontAux_of_zero _ _ _ hw,
          trimFrontAux_of_zero _ _ _ (leadingWidth_concat_cr_of_zero s hnil hw), if_neg hnil]
      · have hle := leadingWidth_le spaceRunes s
        have hrec : trimFrontAux spaceRunes (f + 1) s
            = trimFrontAux spaceRunes f (s.drop (leadingWidth spaceRunes s)) := by
          conv => lhs; unfold trimFrontAux
          rw [if_neg hw]
        have hrec2 : trimFrontAux spaceRunes (f + 1 + 1) (s ++ [13])
            = trimFrontAux spaceRunes (f + 1)
                (s.drop (leadingWidth spaceRunes s) ++ [13]) := by
          conv => lhs; unfold trimFrontAux
          rw [leadingWidth_concat_cr_of_pos s hw, if_neg hw, List.drop_append_of_le_length hle]
        rw [hrec, hrec2]
        exact ih _ (by rw [List.length_drop]; omega)

theorem trimFront_rev_cr (x : GoString) :
    trimFront spaceRunesRev (13 :: x) = trimFront spaceRunesRev x := by
  have hw : leadingWidth spaceRunesRev (13 :: x) = 1 := by
    simp [leadingWidth, spaceRunesRev, spaceRunes, List.isPrefixOf]
  unfold trimFront
  rw [List.length_cons]
  conv => lhs; unfold trimFrontAux
  rw [hw, if_neg (by decide)]
  rfl

theorem TrimSpace_concat_cr (l : GoString) : TrimSpace (l ++ [13]) = TrimSpace l := by
  unfold TrimSpace
  have h := trimFrontAux_concat_cr l.length l le_rfl
  have e : trimFront spaceRunes (l ++ [13]) = trimFrontAux spaceRunes (l.length + 1) (l ++ [13]) := by
    unfold trimFront
    rw [List.length_append]
    rfl
  rw [e, h]
  change (trimFront spaceRunesRev (if trimFront spaceRunes l = [] then []
      else trimFront spaceRunes l ++ [13]).reverse).reverse = _
  split
  · rename_i h0
    rw [h0]
  · rw [List.reverse_append, List.reverse_singleton, List.singleton_append, trimFront_rev_cr]

theorem TrimSpace_dropCR (data : GoString) : TrimSpace (dropCR data) = TrimSpace data := by
  unfold dropCR
  split
  · rename_i h
    have := @List.dropLast_append_getLast? _ data 13 (Option.mem_def.mpr h)
    conv => rhs; rw [← this]
    rw [TrimSpace_concat_cr]
  · rfl

theorem TrimSpace_idem (s : GoString) : TrimSpace (TrimSpace s) = TrimSpace s := by
  have hu : leadingWidth spaceRunes (trimFront spaceRunes s) = 0 :=
    trimFrontAux_width spaceRunes spaceRunes_ne_nil _ s le_rfl
  have hv : leadingWidth spaceRunesRev
      (trimFront spaceRunesRev (trimFront spaceRunes s).reverse) = 0 :=
    trimFrontAux_width spaceRunesRev spaceRunesRev_ne_nil _ _ le_rfl
  have hsuf : trimFront spaceRunesRev (trimFront spaceRunes s).reverse
      <:+ (trimFront spaceRunes s).reverse := trimFrontAux_suffix _ _ _
  have hpre : TrimSpace s <+: trimFront spaceRunes s := by
    unfold TrimSpace
    rw [← List.reverse_suffix, List.reverse_reverse]
    exact hsuf
  have ht : leadingWidth spaceRunes (TrimSpace s) = 0 := by
    rw [leadingWidth_eq_zero_iff spaceRunes spaceRunes_ne_nil] at hu ⊢
    intro e he hp
    exact hu e he (hp.trans hpre)
  have h1 : trimFront spaceRunes (TrimSpace s) = TrimSpace s :=
    trimFrontAux_of_zero _ _ _ ht
  have h2 : (TrimSpace s).reverse = trimFront spaceRunesRev (trimFront spaceRunes s).reverse := by
    unfold TrimSpace
    rw [List.reverse_reverse]
  have key : TrimSpace (TrimSpace s)
      = (trimFront spaceRunesRev (trimFront spaceRunes (TrimSpace s)).reverse).reverse := rfl
  rw [key, h1, h2]
  have h3 : trimFront spaceRunesRev (trimFront spaceRunesRev (trimFront spaceRunes s).reverse)
      = trimFront spaceRunesRev (trimFront spaceRunes s).reverse :=
    trimFrontAux_of_zero _ _ _ hv
  rw [h3]
  rfl

/-! ## Claim on `loadVectors` -/

theorem splitByte_eq (sep : UInt8) (s : GoString) :
    splitByte sep s = s.takeWhile (fun b => b ≠ sep) ::
      (match s.dropWhile (fun b => b ≠ sep) with
       | [] => []
       | _ :: tail => splitByte sep tail) := by
  induction s with
  | nil => rfl
  | cons b rest ih =>
    by_cases hb : b = sep
    · subst hb
      simp [splitByte, List.takeWhile, List.dropWhile]
    · simp only [splitByte, if_neg hb]
      rw [ih]
      simp [List.takeWhile, List.dropWhile, hb]

theorem dropWhile_length_le (s : GoString) :
    ((s.dropWhile (fun b => b ≠ 10)).drop 1).length ≤ s.length - 1 ∧
      (s ≠ [] → ((s.dropWhile (fun b => b ≠ 10)).drop 1).length < s.length) := by
  have h := (List.dropWhile_suffix (fun b : UInt8 => decide (b ≠ 10)) (l := s)).length_le
  rw [List.length_drop]
  refine ⟨by omega, fun hne => ?_⟩
  have : 0 < s.length := List.length_pos.mpr hne
  omega

theorem nonBlankTrimmedLines_nil : nonBlankTrimmedLines [] = [] := by decide

theorem nonBlankTrimmedLines_step (rest : GoString) :
    nonBlankTrimmedLines rest =
      (if TrimSpace (rest.takeWhile (fun b => b ≠ 10)) ≠ [] then
          [TrimSpace (rest.takeWhile (fun b => b ≠ 10))] else []) ++
        (match rest.dropWhile (fun b => b ≠ 10) with
         | [] => []
         | _ :: tail => nonBlankTrimmedLines tail) := by
  unfold nonBlankTrimmedLines
  rw [splitByte_eq]
  simp only [List.map_cons, List.filter_cons]
  cases rest.dropWhile (fun b => b ≠ 10) with
  | nil => by_cases h : TrimSpace (rest.takeWhile (fun b => b ≠ 10)) = [] <;> simp_all
  | cons x tail => by_cases h : TrimSpace (rest.takeWhile (fun b => b ≠ 10)) = [] <;> simp_all

theorem scanLines_short (fuel : Nat) :
    ∀ (rest : GoString) (vecs : List GoString), rest.length < fuel →
      (∀ l ∈ splitByte 10 rest, l.length < bufSize) →
      scanLines fuel rest vecs = (vecs ++ nonBlankTrimmedLines rest, none) := by
  induction fuel with
  | zero => intro rest vecs h; omega
  | succ f ih =>
    intro rest vecs hlen hshort
    unfold scanLines
    by_cases hnil : rest = []
    · subst hnil
      simp [scanOnce, nonBlankTrimmedLines_nil]
    · have hline : (rest.takeWhile (fun b => b ≠ 10)).length < bufSize := by
        apply hshort
        rw [splitByte_eq]
        exact List.mem_cons_self _ _
      have hscan : scanOnce rest = ScanResult.token (dropCR (rest.takeWhile (fun b => b ≠ 10)))
          ((rest.dropWhile (fun b => b ≠ 10)).drop 1) := by
        unfold scanOnce
        rw [if_neg hnil, if_neg (by omega)]
      rw [hscan]
      simp only [TrimSpace_dropCR]
      have hrest := (dropWhile_length_le rest).2 hnil
      have hsplit := splitByte_eq 10 rest
      rw [nonBlankTrimmedLines_step rest]
      cases hd : rest.dropWhile (fun b => b ≠ 10) with
      | nil =>
        rw [hd] at hsplit
        simp only [List.drop_nil]
        rw [ih [] _ (by simp; omega) (by intro l hl; simp [splitByte] at hl; subst hl; decide)]
        generalize TrimSpace (rest.takeWhile (fun b => b ≠ 10)) = t
        by_cases h : t = [] <;> simp [h, nonBlankTrimmedLines_nil]
      | cons x tail =>
        rw [hd] at hsplit hrest
        simp only [List.drop_succ_cons, List.drop_zero, List.length_cons] at hrest ⊢
        rw [ih tail _ (by omega) (by
          intro l hl
          apply hshort
          rw [hsplit]
          exact List.mem_cons_of_mem _ hl)]
        generalize TrimSpace (rest.takeWhile (fun b => b ≠ 10)) = t
        by_cases h : t = [] <;> simp [h]

theorem scanLines_long (fuel : Nat) :
    ∀ (rest : GoString) (vecs : List GoString), rest.length < fuel →
      (∃ l ∈ splitByte 10 rest, bufSize ≤ l.length) →
      (scanLines fuel rest vecs).2 = some LoadError.tooLong := by
  induction fuel with
  | zero => intro rest vecs h; omega
  | succ f ih =>
    intro rest vecs hlen hlong
    obtain ⟨l, hl, hb⟩ := hlong
    unfold scanLines
    have hnil : rest ≠ [] := by
      intro h
      subst h
      simp [splitByte] at hl
      subst hl
      simp [bufSize] at hb
    by_cases hline : bufSize ≤ (rest.takeWhile (fun b => b ≠ 10)).length
    · have hscan : scanOnce rest = ScanResult.tooLong := by
        unfold scanOnce
        rw [if_neg hnil, if_pos hline]
      rw [hscan]
    · have hscan : scanOnce rest = ScanResult.token (dropCR (rest.takeWhile (fun b => b ≠ 10)))
          ((rest.dropWhile (fun b => b ≠ 10)).drop 1) := by
        unfold scanOnce
        rw [if_neg hnil, if_neg hline]
      rw [hscan]
      simp only []
      have hrest := (dropWhile_length_le rest).2 hnil
      rw [splitByte_eq] at hl
      rcases List.mem_cons.mp hl with h1 | h1
      · subst h1; omega
      · cases hd : rest.dropWhile (fun b => b ≠ 10) with
        | nil => rw [hd] at h1; simp at h1
        | cons x tail =>
          rw [hd] at h1 hrest
          simp only [List.drop_succ_cons, List.drop_zero, List.length_cons] at hrest ⊢
          exact ih tail _ (by omega) ⟨l, h1, hb⟩

theorem loadVectors_replicate (n : Nat) (h : bufSize ≤ n) :
    loadVectors (some (List.replicate n 97)) = ([], some LoadError.tooLong) := by
  have hne : List.replicate n (97 : UInt8) ≠ [] := by
    intro h0
    have := congrArg List.length h0
    simp [bufSize] at this h
    omega
  have htw : (List.replicate n (97 : UInt8)).takeWhile (fun b => b ≠ 10) = List.replicate n 97 := by
    rw [List.takeWhile_eq_self_iff]
    intro b hb
    rw [List.eq_of_mem_replicate hb]
    decide
  have hscan : scanOnce (List.replicate n 97) = ScanResult.tooLong := by
    unfold scanOnce
    rw [if_neg hne, htw, List.length_replicate, if_pos h]
  unfold loadVectors
  simp only [scanLines, hscan]

/-- C8 (as amended). For a data set file that can be read and whose lines are all shorter
than the scanner's buffer of `64*1024` bytes, `loadVectors` returns without error exactly
the lines of the content (split at line feeds), each trimmed of surrounding white space,
without those that are then empty, in file order; every returned string is non-empty and
already trimmed, and there are as many as there are non-blank lines.  When a line has
`64*1024` bytes or more, `loadVectors` returns the error `bufio.ErrTooLong`. -/
theorem c8_loadVectors (content : GoString) :
    ((∀ l ∈ splitByte 10 content, l.length < bufSize) →
      loadVectors (some content) = (nonBlankTrimmedLines content, none) ∧
      (∀ v ∈ (loadVectors (some content)).1, v ≠ [] ∧ TrimSpace v = v) ∧
      (loadVectors (some content)).1.length
        = (splitByte 10 content).countP (fun l => TrimSpace l ≠ [])) ∧
    ((∃ l ∈ splitByte 10 content, bufSize ≤ l.length) →
      (loadVectors (some content)).2 = some LoadError.tooLong) := by
  constructor
  · intro hshort
    have h : loadVectors (some content) = (nonBlankTrimmedLines content, none) := by
      unfold loadVectors
      simp only []
      rw [scanLines_short _ content [] (by omega) hshort, List.nil_append]
    refine ⟨h, ?_, ?_⟩
    · rw [h]
      intro v hv
      simp only [nonBlankTrimmedLines, List.mem_filter, List.mem_map] at hv
      obtain ⟨⟨l, _, hl⟩, hne⟩ := hv
      refine ⟨by simpa using hne, ?_⟩
      rw [← hl, TrimSpace_idem]
    · rw [h]
      simp only [nonBlankTrimmedLines]
      rw [← List.countP_eq_length_filter, List.countP_map]
      rfl
  · intro hlong
    unfold loadVectors
    exact scanLines_long _ content [] (by omega) hlong

/-- C8, witness: the content `a\r\n\n b \nc`. -/
theorem c8_loadVectors_witness :
    loadVectors (some [97, 13, 10, 10, 32, 98, 32, 10, 99]) = ([[97], [98], [99]], none) :=
  ((c8_loadVectors [97, 13, 10, 10, 32, 98, 32, 10, 99]).1 (by decide)).1.trans (by decide)

/-- C8, counterexample to the claim as stated: for a readable file that holds one line of
`64*1024` bytes (the letter `a`), `loadVectors` returns an error, and no line. -/
theorem c8_counterexample :
    loadVectors (some (List.replicate 65536 97)) = ([], some LoadError.tooLong) :=
  loadVectors_replicate 65536 (by decide)

/-! ## Claim on the random draws -/

theorem firstDraw_defined (render : GoString → GoString) (tablesParam content : GoString)
    (raw₁ raw₂ : Nat) (hload : (loadVectors (some content)).2 = none)
    (htab : tableNamesOf tablesParam ≠ []) (hvec : (loadVectors (some content)).1 ≠ []) :
    ∃ tableIdx vecIdx template vecStr,
      tableIdx < (tableNamesOf tablesParam).length ∧
      vecIdx < (loadVectors (some content)).1.length ∧
      ((tableNamesOf tablesParam).map render)[tableIdx]? = some template ∧
      (loadVectors (some content)).1[vecIdx]? = some vecStr ∧
      firstDraw render tablesParam (some content) raw₁ raw₂
        = DrawResult.drawn template vecStr := by
  unfold firstDraw
  generalize loadVectors (some content) = lv at hload hvec ⊢
  obtain ⟨vectors, err⟩ := lv
  simp only at hload hvec
  subst hload
  have ht : 0 < (tableNamesOf tablesParam).length := List.length_pos.mpr htab
  have hv : 0 < vectors.length := List.length_pos.mpr hvec
  have h1 : raw₁ % (tableNamesOf tablesParam).length < (tableNamesOf tablesParam).length :=
    Nat.mod_lt _ ht
  have h2 : raw₂ % vectors.length < vectors.length := Nat.mod_lt _ hv
  have h1' : raw₁ % (tableNamesOf tablesParam).length
      < ((tableNamesOf tablesParam).map render).length := by
    rw [List.length_map]; exact h1
  refine ⟨_, _, _, _, h1, h2, List.getElem?_eq_getElem h1', List.getElem?_eq_getElem h2, ?_⟩
  simp only [Intn, Int.toNat_ofNat]
  rw [if_neg (by omega), if_neg (by omega)]
  simp only [List.getElem?_eq_getElem h1', List.getElem?_eq_getElem h2]

/-- C10, the code at the failing inputs: with `-tables ","` (no entry is left after
trimming) the first draw `r.Intn(lenTabs)` is `r.Intn(0)` and panics, whatever the data
set; with an empty data set file, or one of blank lines only, `loadVectors` returns a nil
error and no vector, `main` goes on, and the draw `r.Intn(lenVecs)` is `r.Intn(0)` and
panics. -/
theorem c10_draw_panics_on_empty (render : GoString → GoString) (raw₁ raw₂ : Nat) :
    tableNamesOf [44] = [] ∧
    firstDraw render [44] (some [91, 49, 93, 10]) raw₁ raw₂ = DrawResult.panic ∧
    loadVectors (some []) = ([], none) ∧
    firstDraw render [49] (some []) raw₁ raw₂ = DrawResult.panic ∧
    loadVectors (some [32, 10, 13, 10]) = ([], none) ∧
    firstDraw render [49] (some [32, 10, 13, 10]) raw₁ raw₂ = DrawResult.panic := by
  have h1 : tableNamesOf [44] = [] := by decide
  have h2 : tableNamesOf [49] = [tablePrefix ++ [49]] := by decide
  have h3 : loadVectors (some [91, 49, 93, 10]) = ([[91, 49, 93]], none) := by decide
  have h4 : loadVectors (some []) = ([], none) := by decide
  have h5 : loadVectors (some [32, 10, 13, 10]) = ([], none) := by decide
  refine ⟨h1, ?_, h4, ?_, h5, ?_⟩
  · simp [firstDraw, h1, h3, Intn]
  · simp [firstDraw, h2, h4, Intn]
  · simp [firstDraw, h2, h5, Intn]

end VectorBench
